import Mathlib

/-!
# vtkInformationExecutivePortVectorKey

A shallow embedding of `Filtering/vtkInformationExecutivePortVectorKey.cxx`
and the properties of its reference-counted (executive, port) vector.

Conventions of the embedding

* A `vtkExecutive*` is a natural number, the address; `0` is the null pointer.
* A C array argument is `Option (List _)`: `none` is the null pointer, and
  `some a` is the memory the pointer addresses. Reading `a[i]` with
  `i ≥ a.length` is outside the array: the function faults, which is the
  result `none` of the embedded function.
* Calling a member function through a null pointer faults as well.
* Every function that can make `Register`/`UnRegister` calls returns, next to
  the new state, the list of those calls in the order they are made.
* `static_cast<int>(size())` is the size itself: vectors are taken to hold
  fewer than 2^31 entries, the range an `int length` can describe.
-/

namespace VTK

/-- A `vtkExecutive*`: the address of an executive, `0` for the null pointer. -/
abbrev vtkExecutive := Nat

/-- One reference-count call on an executive: `e->Register(0)` or
`e->UnRegister(0)`. -/
inductive RefCall where
  | Register (e : vtkExecutive)
  | UnRegister (e : vtkExecutive)
  deriving DecidableEq, Repr

/-- The class `vtkInformationExecutivePortVectorValue`: two vectors. -/
structure vtkInformationExecutivePortVectorValue where
  Executives : List vtkExecutive
  Ports : List Int
  deriving DecidableEq, Repr

/-- What a `vtkObjectBase*` stored in an information object can point to: a
`vtkInformationExecutivePortVectorValue`, or an object of some other class. -/
inductive vtkObjectBase where
  | ExecutivePortVectorValue (v : vtkInformationExecutivePortVectorValue)
  | OtherObject (id : Nat)
  deriving DecidableEq, Repr

/-- A `vtkInformation` as this key sees it: the entry stored under the key,
`none` when there is none. Entries of other keys are neither read nor written
by the functions of this file. -/
abbrev vtkInformation := Option vtkObjectBase

/-- The key itself: its name and location, fixed by the constructor. -/
structure vtkInformationExecutivePortVectorKey where
  Name : String
  Location : String
  deriving DecidableEq, Repr

/-- Register minus UnRegister calls on `h` in a list of calls. -/
def netReferences (h : vtkExecutive) (calls : List RefCall) : Int :=
  (calls.count (RefCall.Register h) : Int) - (calls.count (RefCall.UnRegister h) : Int)

namespace vtkInformationExecutivePortVectorValue

/-- `UnRegisterAllExecutives`: one `UnRegister` per non-null element, in
vector order. -/
def UnRegisterAllExecutives (v : vtkInformationExecutivePortVectorValue) : List RefCall :=
  (v.Executives.filter (fun e => e ≠ 0)).map RefCall.UnRegister

/-- The destructor: `this->UnRegisterAllExecutives()`. -/
def destructor (v : vtkInformationExecutivePortVectorValue) : List RefCall :=
  v.UnRegisterAllExecutives

/-- `SafeDownCast`: the value behind a `vtkObjectBase*`, `none` (null) for a
null pointer or an object of another class. -/
def SafeDownCast : Option vtkObjectBase → Option vtkInformationExecutivePortVectorValue
  | some (vtkObjectBase.ExecutivePortVectorValue v) => some v
  | _ => none

end vtkInformationExecutivePortVectorValue

/-- The reference-count calls made when the information object drops its
reference to a stored object and the object is deleted. An object of another
class makes none on behalf of this key. -/
def vtkObjectBase.Delete : vtkObjectBase → List RefCall
  | vtkObjectBase.ExecutivePortVectorValue v => v.destructor
  | vtkObjectBase.OtherObject _ => []

/-- Reading `a[0], ..., a[n-1]` from a C array: faults past the end. -/
def readArray {α : Type} (a : List α) (n : Nat) : Option (List α) :=
  if n ≤ a.length then some (a.take n) else none

/-- `vtkstd::copy(src, src + n, dst)`: overwrites the first `n` elements of
`dst` with the first `n` elements of `src`; faults when either range is
outside its array. -/
def copy {α : Type} (src : List α) (n : Nat) (dst : List α) : Option (List α) :=
  if n ≤ src.length ∧ n ≤ dst.length then some (src.take n ++ dst.drop n) else none

namespace vtkInformationExecutivePortVectorKey

open vtkInformationExecutivePortVectorValue

/-- `GetAsObjectBase(info)`: the entry under the key. -/
def GetAsObjectBase (info : vtkInformation) : Option vtkObjectBase := info

/-- Modelled from the spec: `vtkInformationKey::SetAsObjectBase`, whose source
(vtkInformationKey.cxx, vtkInformation.cxx) is not part of the material. The
spec gives the information map a set-value-by-key operation that includes
clear, and has the slot value release all held references when its entry is
cleared or replaced. The result is the new entry and the calls made by the
deletion of the old one. -/
def SetAsObjectBase (info : vtkInformation) (value : Option vtkObjectBase) :
    vtkInformation × List RefCall :=
  (value, match info with
          | some old => old.Delete
          | none => [])

/-- The loop of `Set` that registers the given executives:
`if(executives[i]) executives[i]->Register(0)`. -/
def RegisterAll (executives : List vtkExecutive) : List RefCall :=
  (executives.filter (fun e => e ≠ 0)).map RefCall.Register

/-- `Set(info, executives, ports, length)`. -/
def Set (info : vtkInformation) (executives : Option (List vtkExecutive))
    (ports : Option (List Int)) (length : Int) : Option (vtkInformation × List RefCall) :=
  match executives, ports with
  | some executives, some ports =>
    if 0 < length then
      -- Register our references to all the given executives.
      match readArray executives length.toNat with
      | none => none
      | some given =>
        let registered := RegisterAll given
        -- Store the vector of pointers.
        match (SafeDownCast (GetAsObjectBase info)).filter
            (fun oldv => ((oldv.Executives.length : Int) = length)) with
        | some oldv =>
          -- Replace the existing value.
          match copy executives length.toNat oldv.Executives,
                copy ports length.toNat oldv.Ports with
          | some es, some ps =>
            some (some (vtkObjectBase.ExecutivePortVectorValue ⟨es, ps⟩),
                  registered ++ oldv.UnRegisterAllExecutives)
          | _, _ => none
        | none =>
          -- Allocate a new value.
          match readArray executives length.toNat, readArray ports length.toNat with
          | some es, some ps =>
            let r := SetAsObjectBase info (some (vtkObjectBase.ExecutivePortVectorValue ⟨es, ps⟩))
            some (r.1, registered ++ r.2)
          | _, _ => none
    else some (SetAsObjectBase info none)
  | _, _ => some (SetAsObjectBase info none)

/-- `Append(info, executive, port)`. -/
def Append (info : vtkInformation) (executive : vtkExecutive) (port : Int) :
    Option (vtkInformation × List RefCall) :=
  match SafeDownCast (GetAsObjectBase info) with
  | some v =>
    -- The entry already exists.  Append to its vector.
    if executive = 0 then none
    else some (some (vtkObjectBase.ExecutivePortVectorValue
                      ⟨v.Executives ++ [executive], v.Ports ++ [port]⟩),
               [RefCall.Register executive])
  | none =>
    -- The entry does not yet exist.  Just create it.
    Set info (some [executive]) (some [port]) 1

/-- The search loop of `Remove`, at index `i` with `fuel` iterations left:
`some (some i)` when it breaks at `i`, `some none` when it runs to the end of
`Executives`, `none` when `Ports[i]` is read outside the vector. -/
def RemoveLoop (v : vtkInformationExecutivePortVectorValue) (executive : vtkExecutive)
    (port : Int) : Nat → Nat → Option (Option Nat)
  | 0, _ => some none
  | fuel + 1, i =>
    match v.Executives[i]? with
    | none => some none
    | some e =>
      if e = executive then
        match v.Ports[i]? with
        | none => none
        | some p =>
          if p = port then some (some i)
          else RemoveLoop v executive port fuel (i + 1)
      else RemoveLoop v executive port fuel (i + 1)

/-- The end of `Remove`: if the last entry was removed, remove the entire
value. `calls` are the calls made before. -/
def RemoveFinish (v : vtkInformationExecutivePortVectorValue) (calls : List RefCall) :
    vtkInformation × List RefCall :=
  if v.Executives.isEmpty then
    let r := SetAsObjectBase (some (vtkObjectBase.ExecutivePortVectorValue v)) none
    (r.1, calls ++ r.2)
  else (some (vtkObjectBase.ExecutivePortVectorValue v), calls)

/-- `Remove(info, executive, port)`. -/
def Remove (info : vtkInformation) (executive : vtkExecutive) (port : Int) :
    Option (vtkInformation × List RefCall) :=
  match SafeDownCast (GetAsObjectBase info) with
  | some v =>
    -- The entry exists.  Find this executive/port pair and remove it.
    match RemoveLoop v executive port v.Executives.length 0 with
    | none => none
    | some none => some (RemoveFinish v [])
    | some (some i) =>
      if executive = 0 then none
      else some (RemoveFinish ⟨v.Executives.eraseIdx i, v.Ports.eraseIdx i⟩
                  [RefCall.UnRegister executive])
  | none => some (info, [])

/-- `GetExecutives(info)`: the memory behind `&v->Executives[0]`, or null. -/
def GetExecutives (info : vtkInformation) : Option (List vtkExecutive) :=
  match SafeDownCast (GetAsObjectBase info) with
  | some v => some v.Executives
  | none => none

/-- `GetPorts(info)`: the memory behind `&v->Ports[0]`, or null. -/
def GetPorts (info : vtkInformation) : Option (List Int) :=
  match SafeDownCast (GetAsObjectBase info) with
  | some v => some v.Ports
  | none => none

/-- `Get(info, executives, ports)`: the two caller buffers after the call. -/
def Get (info : vtkInformation) (executives : List vtkExecutive) (ports : List Int) :
    Option (List vtkExecutive × List Int) :=
  match SafeDownCast (GetAsObjectBase info) with
  | some v =>
    match copy v.Executives v.Executives.length executives,
          copy v.Ports v.Ports.length ports with
    | some es, some ps => some (es, ps)
    | _, _ => none
  | none => some (executives, ports)

/-- `Length(info)`. -/
def Length (info : vtkInformation) : Int :=
  match SafeDownCast (GetAsObjectBase info) with
  | some v => (v.Executives.length : Int)
  | none => 0

/-- `Has(info)`. -/
def Has (info : vtkInformation) : Int :=
  match SafeDownCast (GetAsObjectBase info) with
  | some _ => 1
  | none => 0

/-- `Copy(from, to)`: the new entry of `to` and the calls made. The arrays
handed to `Set` are the contents of the vectors of `from` at the call. -/
def Copy (fromInfo toInfo : vtkInformation) : Option (vtkInformation × List RefCall) :=
  Set toInfo (GetExecutives fromInfo) (GetPorts fromInfo) (Length fromInfo)

/-- `GetName()`. -/
def GetName (key : vtkInformationExecutivePortVectorKey) : String := key.Name

/-- `Report(info, collector)`. The collector is the list of the
`vtkGarbageCollectorReport(collector, ptr, desc)` calls it has received, as
pairs `(ptr, desc)`; the result is that list after the call. -/
def Report (key : vtkInformationExecutivePortVectorKey) (info : vtkInformation)
    (collector : List (vtkExecutive × String)) : List (vtkExecutive × String) :=
  match SafeDownCast (GetAsObjectBase info) with
  | some v => collector ++ v.Executives.map (fun e => (e, key.GetName))
  | none => collector

end vtkInformationExecutivePortVectorKey

open vtkInformationExecutivePortVectorValue vtkInformationExecutivePortVectorKey

/-- The handle sequence of the slot; empty when there is no slot. -/
def executivesOf (info : vtkInformation) : List vtkExecutive :=
  match SafeDownCast info with
  | some v => v.Executives
  | none => []

/-- The port sequence of the slot; empty when there is no slot. -/
def portsOf (info : vtkInformation) : List Int :=
  match SafeDownCast info with
  | some v => v.Ports
  | none => []

/-- The representation invariant of an entry: a stored value has two vectors
of the same size and is not empty. -/
def Valid : vtkInformation → Prop
  | some (vtkObjectBase.ExecutivePortVectorValue v) =>
    v.Executives.length = v.Ports.length ∧ v.Executives ≠ []
  | _ => True

instance : DecidablePred Valid := fun info =>
  match info with
  | some (vtkObjectBase.ExecutivePortVectorValue v) =>
    inferInstanceAs (Decidable (v.Executives.length = v.Ports.length ∧ v.Executives ≠ []))
  | some (vtkObjectBase.OtherObject _) => isTrue trivial
  | none => isTrue trivial

/-- The calls made when the entry of `info` is dropped. -/
def deleteCalls : vtkInformation → List RefCall
  | some old => old.Delete
  | none => []

namespace vtkInformationExecutivePortVectorKey

/-- Index `i` holds the pair `(executive, port)`. -/
def HoldsAt (es : List vtkExecutive) (ps : List Int) (executive : vtkExecutive) (port : Int)
    (i : Nat) : Prop :=
  es[i]? = some executive ∧ ps[i]? = some port

/-- Index `i` is the smallest index that holds the pair `(executive, port)`. -/
def FirstAt (es : List vtkExecutive) (ps : List Int) (executive : vtkExecutive) (port : Int)
    (i : Nat) : Prop :=
  HoldsAt es ps executive port i ∧ ∀ j, j < i → ¬ HoldsAt es ps executive port j

instance (es : List vtkExecutive) (ps : List Int) (executive : vtkExecutive) (port : Int)
    (i : Nat) : Decidable (HoldsAt es ps executive port i) :=
  inferInstanceAs (Decidable (es[i]? = some executive ∧ ps[i]? = some port))

instance (es : List vtkExecutive) (ps : List Int) (executive : vtkExecutive) (port : Int)
    (i : Nat) : Decidable (FirstAt es ps executive port i) :=
  inferInstanceAs (Decidable (HoldsAt es ps executive port i ∧
    ∀ j, j < i → ¬ HoldsAt es ps executive port j))

/-- What one call must do to an entry: keep it valid, and make, for every
non-null executive, as many net `Register` calls as the number of its
occurrences in the handle sequence grows. -/
def StepOK (info : vtkInformation) (r : vtkInformation × List RefCall) : Prop :=
  Valid r.1 ∧ ∀ h : vtkExecutive, h ≠ 0 →
    netReferences h r.2 = ((executivesOf r.1).count h : Int) - ((executivesOf info).count h : Int)

end vtkInformationExecutivePortVectorKey

/-- One call of the key's interface on the information object numbered `info`. -/
inductive Call where
  | Set (info : Nat) (executives : Option (List vtkExecutive)) (ports : Option (List Int))
      (length : Int)
  | Append (info : Nat) (executive : vtkExecutive) (port : Int)
  | Remove (info : Nat) (executive : vtkExecutive) (port : Int)
  | Copy (fromInfo toInfo : Nat)
  deriving DecidableEq, Repr

/-- The caller's side of the interface: `Set` is given arrays of the stated
length, and `Append` and `Remove` are given a non-null executive. -/
def Call.WellFormed : Call → Prop
  | Call.Set _ (some es) (some ps) n => 0 < n → (es.length : Int) = n ∧ (ps.length : Int) = n
  | Call.Set _ _ _ _ => True
  | Call.Append _ e _ => e ≠ 0
  | Call.Remove _ e _ => e ≠ 0
  | Call.Copy _ _ => True

instance : DecidablePred Call.WellFormed := fun c =>
  match c with
  | Call.Set _ (some es) (some ps) n =>
    inferInstanceAs (Decidable (0 < n → (es.length : Int) = n ∧ (ps.length : Int) = n))
  | Call.Set _ none _ _ => isTrue trivial
  | Call.Set _ (some _) none _ => isTrue trivial
  | Call.Append _ e _ => inferInstanceAs (Decidable (e ≠ 0))
  | Call.Remove _ e _ => inferInstanceAs (Decidable (e ≠ 0))
  | Call.Copy _ _ => isTrue trivial

/-- The information objects of a program, by number, each with the entry it
holds under the key and the `Register`/`UnRegister` calls the key has made so
far for that entry, oldest first. -/
structure World where
  info : Nat → vtkInformation
  calls : Nat → List RefCall

/-- No information object has an entry under the key. -/
def World.initial : World := ⟨fun _ => none, fun _ => []⟩

/-- The world after a call on information object `m` that returned `r`. -/
def World.update (w : World) (m : Nat) (r : vtkInformation × List RefCall) : World :=
  ⟨Function.update w.info m r.1, Function.update w.calls m (w.calls m ++ r.2)⟩

/-- One call; `none` when it faults. In `Copy(A, A)` the arrays handed to `Set`
are the vectors of the slot itself: `Set` reads them in its register loop
before it writes anything, and takes its in-place path, the length being the
slot's own, where `vtkstd::copy` assigns each element to itself. -/
def World.call (w : World) : Call → Option World
  | Call.Set m executives ports length =>
    (vtkInformationExecutivePortVectorKey.Set (w.info m) executives ports length).map (w.update m)
  | Call.Append m executive port =>
    (vtkInformationExecutivePortVectorKey.Append (w.info m) executive port).map (w.update m)
  | Call.Remove m executive port => (Remove (w.info m) executive port).map (w.update m)
  | Call.Copy a b => (Copy (w.info a) (w.info b)).map (w.update b)

/-- A sequence of calls, first to last; `none` when one of them faults. -/
def World.run (w : World) : List Call → Option World
  | [] => some w
  | c :: cs =>
    match w.call c with
    | some w1 => w1.run cs
    | none => none

/-- The invariant of a world: every entry is valid and holds, on every
non-null executive, as many references as the executive has occurrences in
its handle sequence. -/
def World.Inv (w : World) : Prop :=
  ∀ m : Nat, Valid (w.info m) ∧ ∀ h : vtkExecutive, h ≠ 0 →
    netReferences h (w.calls m) = ((executivesOf (w.info m)).count h : Int)

namespace vtkInformationExecutivePortVectorKey

/-- One step of `Set` that can be observed from outside: a reference-count
call on an executive, or a write to the map entry or to the vectors of the
value stored in it, given by the entry as it is after the write. -/
inductive SetEvent where
  | call (c : RefCall)
  | write (info : vtkInformation)
  deriving DecidableEq, Repr

/-- Modelled from the spec: the steps of `vtkInformationKey::SetAsObjectBase`,
whose source is not part of the material: the entry is set, and the value it
held before releases its references as it is discarded. -/
def SetAsObjectBaseEvents (info : vtkInformation) (value : Option vtkObjectBase) :
    List SetEvent :=
  SetEvent.write value :: ((SetAsObjectBase info value).2).map SetEvent.call

/-- `Set(info, executives, ports, length)` once more, statement by statement,
as the list of its observable steps in the order they happen. -/
def SetEvents (info : vtkInformation) (executives : Option (List vtkExecutive))
    (ports : Option (List Int)) (length : Int) : Option (List SetEvent) :=
  match executives, ports with
  | some executives, some ports =>
    if 0 < length then
      -- Register our references to all the given executives.
      match readArray executives length.toNat with
      | none => none
      | some given =>
        let registered := (RegisterAll given).map SetEvent.call
        -- Store the vector of pointers.
        match (SafeDownCast (GetAsObjectBase info)).filter
            (fun oldv => ((oldv.Executives.length : Int) = length)) with
        | some oldv =>
          -- Replace the existing value.
          match copy executives length.toNat oldv.Executives,
                copy ports length.toNat oldv.Ports with
          | some es, some ps =>
            some (registered ++ oldv.UnRegisterAllExecutives.map SetEvent.call ++
              [SetEvent.write (some (vtkObjectBase.ExecutivePortVectorValue ⟨es, oldv.Ports⟩)),
               SetEvent.write (some (vtkObjectBase.ExecutivePortVectorValue ⟨es, ps⟩))])
          | _, _ => none
        | none =>
          -- Allocate a new value.
          match readArray executives length.toNat, readArray ports length.toNat with
          | some es, some ps =>
            some (registered ++
              SetAsObjectBaseEvents info (some (vtkObjectBase.ExecutivePortVectorValue ⟨es, ps⟩)))
          | _, _ => none
    else some (SetAsObjectBaseEvents info none)
  | _, _ => some (SetAsObjectBaseEvents info none)

/-- The reference-count calls among the steps, in order. -/
def callsOf : List SetEvent → List RefCall
  | [] => []
  | SetEvent.call c :: rest => c :: callsOf rest
  | SetEvent.write _ :: rest => callsOf rest

/-- The entry after the steps: what the last write left, `info` without one. -/
def entryAfter (info : vtkInformation) : List SetEvent → vtkInformation
  | [] => info
  | SetEvent.call _ :: rest => entryAfter info rest
  | SetEvent.write w :: rest => entryAfter w rest

/-- The first branch of the `if(oldv && size == length)` of `Set`, after the
register loop has made the calls `registered`: replace the existing value
`oldv` in place. -/
def SetReplaceExisting (oldv : vtkInformationExecutivePortVectorValue)
    (executives : List vtkExecutive) (ports : List Int) (length : Int)
    (registered : List RefCall) : Option (vtkInformation × List RefCall) :=
  match copy executives length.toNat oldv.Executives,
        copy ports length.toNat oldv.Ports with
  | some es, some ps =>
    some (some (vtkObjectBase.ExecutivePortVectorValue ⟨es, ps⟩),
          registered ++ oldv.UnRegisterAllExecutives)
  | _, _ => none

/-- The `else` branch of the `if(oldv && size == length)` of `Set`, after the
register loop has made the calls `registered`: allocate a new value and set
it as the entry of `info`. -/
def SetAllocateNew (info : vtkInformation)
    (executives : List vtkExecutive) (ports : List Int) (length : Int)
    (registered : List RefCall) : Option (vtkInformation × List RefCall) :=
  match readArray executives length.toNat, readArray ports length.toNat with
  | some es, some ps =>
    let r := SetAsObjectBase info (some (vtkObjectBase.ExecutivePortVectorValue ⟨es, ps⟩))
    some (r.1, registered ++ r.2)
  | _, _ => none

end vtkInformationExecutivePortVectorKey

/-- The slot as one sequence of (handle, port) pairs: index `i` of the handle
sequence paired with index `i` of the port sequence. -/
def pairsOf (info : vtkInformation) : List (vtkExecutive × Int) :=
  (executivesOf info).zip (portsOf info)

/-- What the spec has a call do to the pair sequences of the information
objects: `Set` replaces the sequence by the pairs of the arrays (none for a
null array or a length that is not positive), `Append` adds a pair at the end,
`Remove` erases the first pair equal to the given one, `Copy` gives the
destination the sequence of the source. -/
def Call.onPairs (pairs : Nat → List (vtkExecutive × Int)) :
    Call → (Nat → List (vtkExecutive × Int))
  | Call.Set m (some es) (some ps) n =>
    Function.update pairs m (if 0 < n then (es.take n.toNat).zip (ps.take n.toNat) else [])
  | Call.Set m _ _ _ => Function.update pairs m []
  | Call.Append m e p => Function.update pairs m (pairs m ++ [(e, p)])
  | Call.Remove m e p => Function.update pairs m ((pairs m).erase (e, p))
  | Call.Copy a b => Function.update pairs b (pairs a)

/-- The pair sequences of all information objects of a world. -/
def World.pairs (w : World) : Nat → List (vtkExecutive × Int) :=
  fun m => pairsOf (w.info m)

end VTK

/-!
# vtkPieceRequestFilter

A shallow embedding of `Parallel/vtkPieceRequestFilter.cxx`: `ProcessRequest`
and its three request handlers.

* A data object is given by the results of its virtual methods, which
  `vtkTypeMacro` and the class supply and `vtkPieceRequestFilter.cxx` only
  calls, and by the data it holds.
* An information object is a map from keys to entries; an information vector
  is the list of its information objects.
* A handler returns its `int` result together with the pipeline as it is after
  the call; `none` stands for a fault, a member call through a null pointer or
  an array read outside the array.
-/

namespace VTKParallel

/-- A `vtkDataObject`: what `GetClassName()` and `GetExtentType()` return for
it, the type names for which its `IsA(type)` returns 1, and the data it
holds. -/
structure vtkDataObject where
  ClassName : String
  IsATypes : List String
  ExtentType : Int
  Data : List Int
  deriving DecidableEq, Repr

namespace vtkDataObject

/-- `GetClassName()`. -/
def GetClassName (o : vtkDataObject) : String := o.ClassName

/-- `IsA(type)`. -/
def IsA (o : vtkDataObject) (type : String) : Bool := decide (type ∈ o.IsATypes)

/-- `GetExtentType()`. -/
def GetExtentType (o : vtkDataObject) : Int := o.ExtentType

/-- `NewInstance()`: a new object of the class of `o`, holding no data. -/
def NewInstance (o : vtkDataObject) : vtkDataObject := { o with Data := [] }

/-- Modelled from the spec: `vtkDataObject::ShallowCopy`, whose source is not
part of the material: the object takes the current data of `src`. -/
def ShallowCopy (o src : vtkDataObject) : vtkDataObject := { o with Data := src.Data }

end vtkDataObject

/-- The keys the filter uses, and any other key. -/
inductive vtkInformationKey where
  | REQUEST_DATA
  | REQUEST_DATA_OBJECT
  | REQUEST_UPDATE_EXTENT
  | DATA_OBJECT
  | DATA_EXTENT_TYPE
  | UPDATE_PIECE_NUMBER
  | UPDATE_NUMBER_OF_PIECES
  | OtherKey (id : Nat)
  deriving DecidableEq, Repr

/-- What an information object stores under a key. -/
inductive vtkInformationEntry where
  | IntegerValue (value : Int)
  | DataObjectValue (value : vtkDataObject)
  | RequestValue
  | OtherValue (id : Nat)
  deriving DecidableEq, Repr

/-- A `vtkInformation`: the entry under each key, `none` for no entry. -/
abbrev vtkInformation := vtkInformationKey → Option vtkInformationEntry

namespace vtkInformation

/-- Modelled from the spec: `vtkInformation::Has(key)`, whose source is not
part of the material: whether the map has an entry under the key. -/
def Has (info : vtkInformation) (key : vtkInformationKey) : Bool := (info key).isSome

/-- Modelled from the spec: `vtkInformation::Set(key, int)`, whose source is
not part of the material: set-value-by-key, all other entries as they were. -/
def SetInteger (info : vtkInformation) (key : vtkInformationKey) (value : Int) :
    vtkInformation :=
  Function.update info key (some (vtkInformationEntry.IntegerValue value))

/-- Modelled from the spec: `info->Get(vtkDataObject::DATA_OBJECT())`, whose
source is not part of the material: the data object stored in the map, null
when there is none. -/
def GetDataObject (info : vtkInformation) : Option vtkDataObject :=
  match info vtkInformationKey.DATA_OBJECT with
  | some (vtkInformationEntry.DataObjectValue o) => some o
  | _ => none

/-- The map with `o` stored as its data object. -/
def SetDataObject (info : vtkInformation) (o : vtkDataObject) : vtkInformation :=
  Function.update info vtkInformationKey.DATA_OBJECT
    (some (vtkInformationEntry.DataObjectValue o))

end vtkInformation

/-- Modelled from the spec: `newOutput->SetPipelineInformation(info)`, whose
source is not part of the material: the object is installed as the data object
of that information object. The result is the information object after it. -/
def SetPipelineInformation (newOutput : vtkDataObject) (info : vtkInformation) :
    vtkInformation :=
  info.SetDataObject newOutput

/-- A `vtkInformationVector`: its information objects. -/
abbrev vtkInformationVector := List vtkInformation

/-- Modelled from the spec: `GetInformationObject(i)`, whose source is not part
of the material: the information object number `i`, null when there is none. -/
def vtkInformationVector.GetInformationObject (v : vtkInformationVector) (i : Nat) :
    Option vtkInformation :=
  v[i]?

/-- Modelled from the spec: `vtkDataObject::GetData(v)`, whose source is not
part of the material: the data object of the first information object of the
vector, null when there is none. -/
def vtkDataObject.GetData (v : vtkInformationVector) : Option vtkDataObject :=
  match v.GetInformationObject 0 with
  | some info => info.GetDataObject
  | none => none

/-- The filter object: its two parameters and, of `vtkAlgorithm`, the number
of output ports and the information object of each output port. -/
structure vtkPieceRequestFilter where
  NumberOfPieces : Int
  Piece : Int
  NumberOfOutputPorts : Int
  OutputPortInformation : List vtkInformation

/-- `GetOutputPortInformation(port)`: null when there is no such port. -/
def vtkPieceRequestFilter.GetOutputPortInformation (self : vtkPieceRequestFilter)
    (port : Nat) : Option vtkInformation :=
  self.OutputPortInformation[port]?

/-- What a request handler reads and writes: the filter (`this`), the array
of input information vectors, one for each input port, and the output
information vector. -/
structure Pipeline where
  self : vtkPieceRequestFilter
  inputVector : List vtkInformationVector
  outputVector : vtkInformationVector

/-- The data object on the single input: that of
`inputVector[0]->GetInformationObject(0)`. -/
def Pipeline.input (p : Pipeline) : Option vtkDataObject :=
  match p.inputVector[0]? with
  | some v => vtkDataObject.GetData v
  | none => none

namespace vtkPieceRequestFilter

open vtkInformationKey

/-- The body of the loop of `RequestDataObject` for output port `i`. -/
def RequestDataObjectPort (input : vtkDataObject) (p : Pipeline) (i : Nat) : Option Pipeline :=
  match p.outputVector.GetInformationObject i with
  | none => none
  | some info =>
    let output := info.GetDataObject
    if (match output with
        | none => true
        | some o => !o.IsA input.GetClassName) then
      let newOutput := input.NewInstance
      let p1 : Pipeline :=
        { p with outputVector := p.outputVector.set i (SetPipelineInformation newOutput info) }
      match p1.self.GetOutputPortInformation 0 with
      | none => none
      | some portInfo =>
        some { p1 with self := { p1.self with
          OutputPortInformation := p1.self.OutputPortInformation.set 0
            (portInfo.SetInteger DATA_EXTENT_TYPE newOutput.GetExtentType) } }
    else some p

/-- `RequestDataObject(request, inputVector, outputVector)`. -/
def RequestDataObject (p : Pipeline) : Option (Int × Pipeline) :=
  match p.inputVector[0]? with
  | none => none
  | some v =>
    match v.GetInformationObject 0 with
    | none => some (0, p)
    | some inInfo =>
      match inInfo.GetDataObject with
      | some input =>
        -- for each output
        match (List.range p.self.NumberOfOutputPorts.toNat).foldlM
            (RequestDataObjectPort input) p with
        | some p1 => some (1, p1)
        | none => none
      | none => some (0, p)

/-- `RequestData(request, inputVector, outputVector)`. The output object is
the one stored in the first output information object, where the copy shows.
A null output faults in `output->ShallowCopy(input)`; to a copy from a null
input the spec gives no meaning, and the embedding gives it none. -/
def RequestData (p : Pipeline) : Option (Int × Pipeline) :=
  match p.inputVector[0]? with
  | none => none
  | some v =>
    match vtkDataObject.GetData v, p.outputVector.GetInformationObject 0 with
    | some input, some info =>
      match info.GetDataObject with
      | some output =>
        some (1, { p with outputVector :=
          p.outputVector.set 0 (info.SetDataObject (output.ShallowCopy input)) })
      | none => none
    | _, _ => none

/-- `RequestUpdateExtent(request, inputVector, outputVector)`. -/
def RequestUpdateExtent (p : Pipeline) : Option (Int × Pipeline) :=
  match p.inputVector[0]? with
  | none => none
  | some v =>
    match v.GetInformationObject 0 with
    | none => none
    | some inInfo =>
      let inInfo1 := inInfo.SetInteger UPDATE_NUMBER_OF_PIECES p.self.NumberOfPieces
      let inInfo2 := inInfo1.SetInteger UPDATE_PIECE_NUMBER p.self.Piece
      some (1, { p with inputVector := p.inputVector.set 0 (v.set 0 inInfo2) })

/-- The methods `ProcessRequest` can hand a request to. -/
inductive Handler where
  | RequestData
  | RequestDataObject
  | RequestUpdateExtent
  | SuperclassProcessRequest
  deriving DecidableEq, Repr

/-- `ProcessRequest(request, inputVector, outputVector)`: the handlers it
calls, in order, and what it returns. `Superclass` is
`vtkAlgorithm::ProcessRequest`, whose source is not part of the material. -/
def ProcessRequest (Superclass : vtkInformation → Pipeline → Option (Int × Pipeline))
    (request : vtkInformation) (p : Pipeline) : List Handler × Option (Int × Pipeline) :=
  -- generate the data
  if request.Has REQUEST_DATA then ([Handler.RequestData], RequestData p)
  -- create the output
  else if request.Has REQUEST_DATA_OBJECT then ([Handler.RequestDataObject], RequestDataObject p)
  -- set update extent
  else if request.Has REQUEST_UPDATE_EXTENT then
    ([Handler.RequestUpdateExtent], RequestUpdateExtent p)
  else ([Handler.SuperclassProcessRequest], Superclass request p)

/-- Whether the loop of `RequestDataObject` keeps what an output information
object holds: there is an output and its `IsA` returns 1 for the class name of
the input. -/
def keepsOutput (input : vtkDataObject) (info : vtkInformation) : Bool :=
  match info.GetDataObject with
  | none => false
  | some o => o.IsA input.GetClassName

/-- An output information object after its turn in the loop of
`RequestDataObject`. -/
def outputAfter (input : vtkDataObject) (info : vtkInformation) : vtkInformation :=
  if keepsOutput input info then info else SetPipelineInformation input.NewInstance info

/-- The pipeline has, for each output port of the filter, an output
information object and a port information object. -/
def PortsPresent (p : Pipeline) : Prop :=
  p.self.NumberOfOutputPorts.toNat ≤ p.outputVector.length ∧
  p.self.NumberOfOutputPorts.toNat ≤ p.self.OutputPortInformation.length

instance (p : Pipeline) : Decidable (PortsPresent p) :=
  inferInstanceAs (Decidable (p.self.NumberOfOutputPorts.toNat ≤ p.outputVector.length ∧
    p.self.NumberOfOutputPorts.toNat ≤ p.self.OutputPortInformation.length))

/-- What the first `n` turns of the loop of `RequestDataObject` have made of
the pipeline `p` when they leave `q`. -/
def LoopInvariant (input : vtkDataObject) (p : Pipeline) (n : Nat) (q : Pipeline) : Prop :=
  q.inputVector = p.inputVector ∧
  q.self.NumberOfPieces = p.self.NumberOfPieces ∧ q.self.Piece = p.self.Piece ∧
  q.self.NumberOfOutputPorts = p.self.NumberOfOutputPorts ∧
  q.outputVector.length = p.outputVector.length ∧
  q.self.OutputPortInformation.length = p.self.OutputPortInformation.length ∧
  (∀ i, i < n → q.outputVector[i]? = (p.outputVector[i]?).map (outputAfter input)) ∧
  (∀ i, n ≤ i → q.outputVector[i]? = p.outputVector[i]?) ∧
  (∀ j, j ≠ 0 → q.self.OutputPortInformation[j]? = p.self.OutputPortInformation[j]?)

end vtkPieceRequestFilter

end VTKParallel

namespace VTK

open vtkInformationExecutivePortVectorValue vtkInformationExecutivePortVectorKey

/-! ## Lemmas -/

theorem netReferences_nil (h : vtkExecutive) : netReferences h [] = 0 := by
  simp [netReferences]

theorem netReferences_append (h : vtkExecutive) (a b : List RefCall) :
    netReferences h (a ++ b) = netReferences h a + netReferences h b := by
  simp only [netReferences, List.count_append, Nat.cast_add]
  ring

theorem count_filter_nonnull (h : vtkExecutive) (hh : h ≠ 0) (es : List vtkExecutive) :
    (es.filter (fun e => e ≠ 0)).count h = es.count h := by
  induction es with
  | nil => rfl
  | cons e es ih =>
    by_cases he : e = 0
    · subst he
      have : ¬ (0 = h) := fun x => hh x.symm
      simp [List.filter_cons, List.count_cons, this] at ih ⊢
      exact ih
    · simp [List.filter_cons, he, List.count_cons] at ih ⊢
      exact ih

theorem count_Register_map_Register (h : vtkExecutive) (es : List vtkExecutive) :
    (es.map RefCall.Register).count (RefCall.Register h) = es.count h := by
  induction es with
  | nil => rfl
  | cons e es ih => simp [List.count_cons, ih]

theorem count_UnRegister_map_UnRegister (h : vtkExecutive) (es : List vtkExecutive) :
    (es.map RefCall.UnRegister).count (RefCall.UnRegister h) = es.count h := by
  induction es with
  | nil => rfl
  | cons e es ih => simp [List.count_cons, ih]

theorem count_UnRegister_map_Register (h : vtkExecutive) (es : List vtkExecutive) :
    (es.map RefCall.Register).count (RefCall.UnRegister h) = 0 := by
  induction es with
  | nil => rfl
  | cons e es ih => simp [List.count_cons, ih]

theorem count_Register_map_UnRegister (h : vtkExecutive) (es : List vtkExecutive) :
    (es.map RefCall.UnRegister).count (RefCall.Register h) = 0 := by
  induction es with
  | nil => rfl
  | cons e es ih => simp [List.count_cons, ih]

theorem netReferences_RegisterAll (h : vtkExecutive) (hh : h ≠ 0) (es : List vtkExecutive) :
    netReferences h (RegisterAll es) = (es.count h : Int) := by
  simp only [netReferences, RegisterAll, count_Register_map_Register,
    count_UnRegister_map_Register, count_filter_nonnull h hh]
  simp

theorem netReferences_UnRegisterAllExecutives (h : vtkExecutive) (hh : h ≠ 0)
    (v : vtkInformationExecutivePortVectorValue) :
    netReferences h v.UnRegisterAllExecutives = - (v.Executives.count h : Int) := by
  simp only [netReferences, UnRegisterAllExecutives, count_UnRegister_map_UnRegister,
    count_Register_map_UnRegister, count_filter_nonnull h hh]
  simp

theorem netReferences_deleteCalls (h : vtkExecutive) (hh : h ≠ 0) (info : vtkInformation) :
    netReferences h (deleteCalls info) = - ((executivesOf info).count h : Int) := by
  match info with
  | none => simp [deleteCalls, executivesOf, SafeDownCast, netReferences]
  | some (vtkObjectBase.OtherObject _) =>
    simp [deleteCalls, executivesOf, SafeDownCast, netReferences, vtkObjectBase.Delete]
  | some (vtkObjectBase.ExecutivePortVectorValue v) =>
    simp only [deleteCalls, executivesOf, SafeDownCast, vtkObjectBase.Delete, destructor]
    exact netReferences_UnRegisterAllExecutives h hh v

namespace vtkInformationExecutivePortVectorKey

theorem Set_clear (info : vtkInformation) (executives : Option (List vtkExecutive))
    (ports : Option (List Int)) (length : Int)
    (h : executives = none ∨ ports = none ∨ length ≤ 0) :
    Set info executives ports length = some (none, deleteCalls info) := by
  have hd : SetAsObjectBase info none = (none, deleteCalls info) := by
    cases info <;> rfl
  cases executives with
  | none => simp [Set, hd]
  | some es =>
    cases ports with
    | none => simp [Set, hd]
    | some ps =>
      have hn : ¬ (0 < length) := by
        rcases h with h | h | h
        · cases h
        · cases h
        · omega
      simp [Set, hn, hd]

theorem Set_of_valid (info : vtkInformation) (hv : Valid info) (es : List vtkExecutive)
    (ps : List Int) (n : Int) (hn : 0 < n) (he : n.toNat ≤ es.length)
    (hp : n.toNat ≤ ps.length) :
    Set info (some es) (some ps) n
      = some (some (vtkObjectBase.ExecutivePortVectorValue ⟨es.take n.toNat, ps.take n.toNat⟩),
              RegisterAll (es.take n.toNat) ++ deleteCalls info) := by
  obtain ⟨k, rfl⟩ := Int.eq_ofNat_of_zero_le (le_of_lt hn)
  simp only [Int.toNat_ofNat] at he hp ⊢
  match info, hv with
  | none, _ =>
    simp [Set, hn, readArray, he, hp, SafeDownCast, GetAsObjectBase, SetAsObjectBase, deleteCalls]
  | some (vtkObjectBase.OtherObject _), _ =>
    simp [Set, hn, readArray, he, hp, SafeDownCast, GetAsObjectBase, SetAsObjectBase, deleteCalls,
      vtkObjectBase.Delete]
  | some (vtkObjectBase.ExecutivePortVectorValue v), hv =>
    obtain ⟨hlen, _⟩ := hv
    by_cases hsz : v.Executives.length = k
    · subst hsz
      have d1 : v.Executives.drop v.Executives.length = [] := List.drop_length _
      have d2 : v.Ports.drop v.Executives.length = [] := by rw [hlen]; exact List.drop_length _
      have hk : 0 < v.Executives.length := by exact_mod_cast hn
      simp [Set, hk, readArray, he, hp, SafeDownCast, GetAsObjectBase, deleteCalls,
        vtkObjectBase.Delete, destructor, copy, d1, d2, Option.filter, ← hlen]
    · have hk : 0 < k := by exact_mod_cast hn
      simp [Set, hk, readArray, he, hp, SafeDownCast, GetAsObjectBase, SetAsObjectBase,
        deleteCalls, vtkObjectBase.Delete, destructor, hsz, Option.filter]

theorem Set_fault (info : vtkInformation) (hv : Valid info) (es : List vtkExecutive)
    (ps : List Int) (n : Int) (hn : 0 < n)
    (h : es.length < n.toNat ∨ ps.length < n.toNat) :
    Set info (some es) (some ps) n = none := by
  obtain ⟨k, rfl⟩ := Int.eq_ofNat_of_zero_le (le_of_lt hn)
  simp only [Int.toNat_ofNat] at h ⊢
  have hk : 0 < k := by exact_mod_cast hn
  by_cases he : k ≤ es.length
  · have hp : ¬ (k ≤ ps.length) := by omega
    match info, hv with
    | none, _ =>
      simp [Set, hk, readArray, he, hp, SafeDownCast, GetAsObjectBase]
    | some (vtkObjectBase.OtherObject _), _ =>
      simp [Set, hk, readArray, he, hp, SafeDownCast, GetAsObjectBase]
    | some (vtkObjectBase.ExecutivePortVectorValue v), hv =>
      by_cases hsz : v.Executives.length = k
      · subst hsz
        have hp2 : ps.length < v.Executives.length := by omega
        simp [Set, hk, readArray, he, SafeDownCast, GetAsObjectBase, copy, Option.filter, hp2]
      · simp [Set, hk, readArray, he, hp, SafeDownCast, GetAsObjectBase, hsz, Option.filter]
  · simp [Set, hk, readArray, he]

theorem RemoveLoop_found (v : vtkInformationExecutivePortVectorValue) (executive : vtkExecutive)
    (port : Int) (k : Nat) : ∀ (fuel i : Nat), k < fuel →
      HoldsAt v.Executives v.Ports executive port (i + k) →
      (∀ j, i ≤ j → j < i + k → ¬ HoldsAt v.Executives v.Ports executive port j) →
      RemoveLoop v executive port fuel i = some (some (i + k)) := by
  induction k with
  | zero =>
    intro fuel i hf hh _
    obtain ⟨f, rfl⟩ : ∃ f, fuel = f + 1 := ⟨fuel - 1, by omega⟩
    obtain ⟨h1, h2⟩ := hh
    simp only [Nat.add_zero] at h1 h2
    simp [RemoveLoop, h1, h2]
  | succ k ih =>
    intro fuel i hf hh hmin
    obtain ⟨f, rfl⟩ : ∃ f, fuel = f + 1 := ⟨fuel - 1, by omega⟩
    have hrec : RemoveLoop v executive port f (i + 1) = some (some (i + (k + 1))) := by
      have := ih f (i + 1) (by omega) (by rw [show i + 1 + k = i + (k + 1) by omega]; exact hh)
        (fun j h1 h2 => hmin j (by omega) (by omega))
      rw [this, show i + 1 + k = i + (k + 1) by omega]
    obtain ⟨h1, h2⟩ := hh
    have hie : i < v.Executives.length := by
      have := (List.getElem?_eq_some_iff.mp h1).1
      omega
    have hip : i < v.Ports.length := by
      have := (List.getElem?_eq_some_iff.mp h2).1
      omega
    have hnot := hmin i (le_refl _) (by omega)
    unfold RemoveLoop
    rw [List.getElem?_eq_getElem hie]
    simp only
    by_cases hx : v.Executives[i] = executive
    · rw [if_pos hx, List.getElem?_eq_getElem hip]
      simp only
      have hy : ¬ v.Ports[i] = port := by
        intro hy
        apply hnot
        exact ⟨by rw [List.getElem?_eq_getElem hie, hx], by rw [List.getElem?_eq_getElem hip, hy]⟩
      rw [if_neg hy]
      exact hrec
    · rw [if_neg hx]
      exact hrec

theorem RemoveLoop_none (v : vtkInformationExecutivePortVectorValue) (executive : vtkExecutive)
    (port : Int) (hlen : v.Executives.length ≤ v.Ports.length) :
    ∀ (fuel i : Nat),
      (∀ j, i ≤ j → ¬ HoldsAt v.Executives v.Ports executive port j) →
      RemoveLoop v executive port fuel i = some none := by
  intro fuel
  induction fuel with
  | zero => intro i _; rfl
  | succ f ih =>
    intro i hno
    have hrec := ih (i + 1) (fun j hj => hno j (by omega))
    unfold RemoveLoop
    by_cases hie : i < v.Executives.length
    · have hip : i < v.Ports.length := by omega
      rw [List.getElem?_eq_getElem hie]
      simp only
      by_cases hx : v.Executives[i] = executive
      · rw [if_pos hx, List.getElem?_eq_getElem hip]
        simp only
        have hy : ¬ v.Ports[i] = port := by
          intro hy
          apply hno i (le_refl _)
          exact ⟨by rw [List.getElem?_eq_getElem hie, hx],
                 by rw [List.getElem?_eq_getElem hip, hy]⟩
        rw [if_neg hy]
        exact hrec
      · rw [if_neg hx]
        exact hrec
    · rw [List.getElem?_eq_none (by omega)]

theorem Remove_found (v : vtkInformationExecutivePortVectorValue) (executive : vtkExecutive)
    (port : Int) (i : Nat) (hnull : executive ≠ 0)
    (hfirst : FirstAt v.Executives v.Ports executive port i) :
    Remove (some (vtkObjectBase.ExecutivePortVectorValue v)) executive port
      = some (RemoveFinish ⟨v.Executives.eraseIdx i, v.Ports.eraseIdx i⟩
          [RefCall.UnRegister executive]) := by
  have hi : i < v.Executives.length := (List.getElem?_eq_some_iff.mp hfirst.1.1).1
  have hloop := RemoveLoop_found v executive port i v.Executives.length 0 hi
    (by rw [Nat.zero_add]; exact hfirst.1)
    (fun j _ hj => hfirst.2 j (by omega))
  rw [Nat.zero_add] at hloop
  simp [Remove, SafeDownCast, GetAsObjectBase, hloop, hnull]

theorem Remove_not_found (v : vtkInformationExecutivePortVectorValue) (executive : vtkExecutive)
    (port : Int) (hlen : v.Executives.length ≤ v.Ports.length)
    (hno : ∀ j, ¬ HoldsAt v.Executives v.Ports executive port j) :
    Remove (some (vtkObjectBase.ExecutivePortVectorValue v)) executive port
      = some (RemoveFinish v []) := by
  have hloop := RemoveLoop_none v executive port hlen v.Executives.length 0 (fun j _ => hno j)
  simp [Remove, SafeDownCast, GetAsObjectBase, hloop]

theorem count_eraseIdx_add (h : vtkExecutive) (l : List vtkExecutive) :
    ∀ (i : Nat) (hi : i < l.length),
      ((l.eraseIdx i).count h : Int) = (l.count h : Int) - (if l[i] = h then 1 else 0) := by
  induction l with
  | nil => intro i hi; simp at hi
  | cons a l ih =>
    intro i hi
    cases i with
    | zero =>
      simp only [List.eraseIdx_cons_zero, List.getElem_cons_zero, List.count_cons]
      by_cases ha : a = h <;> simp [ha]
    | succ i =>
      have hi2 : i < l.length := by simpa using hi
      simp only [List.eraseIdx_cons_succ, List.getElem_cons_succ, List.count_cons]
      push_cast
      rw [ih i hi2]
      ring

theorem first_of_holds (es : List vtkExecutive) (ps : List Int) (executive : vtkExecutive)
    (port : Int) (hex : ∃ j, HoldsAt es ps executive port j) :
    ∃ i, FirstAt es ps executive port i := by
  classical
  exact ⟨Nat.find hex, Nat.find_spec hex, fun j hj => Nat.find_min hex hj⟩

theorem Remove_fault_null (v : vtkInformationExecutivePortVectorValue)
    (port : Int) (i : Nat)
    (hfirst : FirstAt v.Executives v.Ports 0 port i) :
    Remove (some (vtkObjectBase.ExecutivePortVectorValue v)) 0 port = none := by
  have hi : i < v.Executives.length := (List.getElem?_eq_some_iff.mp hfirst.1.1).1
  have hloop := RemoveLoop_found v 0 port i v.Executives.length 0 hi
    (by rw [Nat.zero_add]; exact hfirst.1)
    (fun j _ hj => hfirst.2 j (by omega))
  rw [Nat.zero_add] at hloop
  simp [Remove, SafeDownCast, GetAsObjectBase, hloop]

theorem Set_step (info : vtkInformation) (hv : Valid info)
    (executives : Option (List vtkExecutive)) (ports : Option (List Int)) (length : Int)
    (r : vtkInformation × List RefCall) (hr : Set info executives ports length = some r) :
    StepOK info r := by
  by_cases hc : executives = none ∨ ports = none ∨ length ≤ 0
  · rw [Set_clear info executives ports length hc] at hr
    cases hr
    refine ⟨trivial, fun h hh => ?_⟩
    simp [netReferences_deleteCalls h hh, executivesOf, SafeDownCast]
  · push_neg at hc
    obtain ⟨h1, h2, hn⟩ := hc
    obtain ⟨es, rfl⟩ := Option.ne_none_iff_exists'.mp h1
    obtain ⟨ps, rfl⟩ := Option.ne_none_iff_exists'.mp h2
    by_cases hb : length.toNat ≤ es.length ∧ length.toNat ≤ ps.length
    · rw [Set_of_valid info hv es ps length hn hb.1 hb.2] at hr
      cases hr
      have hpos : 0 < length.toNat := by omega
      refine ⟨⟨?_, ?_⟩, fun h hh => ?_⟩
      · simp [List.length_take, hb.1, hb.2]
      · intro h0
        have := congrArg List.length h0
        rw [List.length_take, List.length_nil] at this
        omega
      · rw [netReferences_append, netReferences_RegisterAll h hh,
          netReferences_deleteCalls h hh]
        simp [executivesOf, SafeDownCast]
        ring
    · rw [Set_fault info hv es ps length hn (by omega)] at hr
      cases hr

theorem Append_step (info : vtkInformation) (hv : Valid info)
    (executive : vtkExecutive) (port : Int)
    (r : vtkInformation × List RefCall) (hr : Append info executive port = some r) :
    StepOK info r := by
  match info, hv with
  | none, hv => exact Set_step none hv _ _ _ r (by simpa [Append, SafeDownCast, GetAsObjectBase] using hr)
  | some (vtkObjectBase.OtherObject k), hv =>
    exact Set_step _ hv _ _ _ r (by simpa [Append, SafeDownCast, GetAsObjectBase] using hr)
  | some (vtkObjectBase.ExecutivePortVectorValue v), hv =>
    by_cases h0 : executive = 0
    · simp [Append, SafeDownCast, GetAsObjectBase, h0] at hr
    · simp only [Append, SafeDownCast, GetAsObjectBase, if_neg h0, Option.some.injEq] at hr
      subst hr
      refine ⟨⟨?_, ?_⟩, fun h hh => ?_⟩
      · simp [hv.1]
      · simp
      · simp only [netReferences, executivesOf, SafeDownCast, List.count_append, List.count_cons,
          List.count_nil]
        by_cases he : executive = h <;> simp [he]

theorem RemoveFinish_step (info : vtkInformation)
    (v : vtkInformationExecutivePortVectorValue) (calls : List RefCall)
    (hlen : v.Executives.length = v.Ports.length)
    (hcalls : ∀ h : vtkExecutive, h ≠ 0 →
      netReferences h calls = (v.Executives.count h : Int) - ((executivesOf info).count h : Int)) :
    StepOK info (RemoveFinish v calls) := by
  by_cases hempty : v.Executives = []
  · have : RemoveFinish v calls = (none, calls) := by
      simp [RemoveFinish, hempty, SetAsObjectBase, vtkObjectBase.Delete, destructor,
        UnRegisterAllExecutives]
    rw [this]
    refine ⟨trivial, fun h hh => ?_⟩
    rw [hcalls h hh, hempty]
    simp [executivesOf, SafeDownCast]
  · have : RemoveFinish v calls = (some (vtkObjectBase.ExecutivePortVectorValue v), calls) := by
      simp [RemoveFinish, hempty]
    rw [this]
    exact ⟨⟨hlen, hempty⟩, fun h hh => by rw [hcalls h hh]; simp [executivesOf, SafeDownCast]⟩

theorem Remove_step (info : vtkInformation) (hv : Valid info)
    (executive : vtkExecutive) (port : Int)
    (r : vtkInformation × List RefCall) (hr : Remove info executive port = some r) :
    StepOK info r := by
  match info, hv with
  | none, hv =>
    simp only [Remove, SafeDownCast, GetAsObjectBase, Option.some.injEq] at hr
    subst hr
    exact ⟨hv, fun h _ => by simp [netReferences]⟩
  | some (vtkObjectBase.OtherObject k), hv =>
    simp only [Remove, SafeDownCast, GetAsObjectBase, Option.some.injEq] at hr
    subst hr
    exact ⟨hv, fun h _ => by simp [netReferences]⟩
  | some (vtkObjectBase.ExecutivePortVectorValue v), hv =>
    by_cases hex : ∃ j, HoldsAt v.Executives v.Ports executive port j
    · obtain ⟨i, hfirst⟩ := first_of_holds _ _ _ _ hex
      by_cases h0 : executive = 0
      · subst h0
        rw [Remove_fault_null v port i hfirst] at hr
        cases hr
      · rw [Remove_found v executive port i h0 hfirst] at hr
        cases hr
        have hi : i < v.Executives.length := (List.getElem?_eq_some_iff.mp hfirst.1.1).1
        have hip : i < v.Ports.length := (List.getElem?_eq_some_iff.mp hfirst.1.2).1
        have hget : v.Executives[i] = executive := by
          have := hfirst.1.1
          rw [List.getElem?_eq_getElem hi] at this
          exact Option.some.inj this
        apply RemoveFinish_step
        · simp only [List.length_eraseIdx, hi, hip, if_true]
          rw [hv.1]
        · intro h hh
          simp only [executivesOf, SafeDownCast]
          rw [count_eraseIdx_add h v.Executives i hi, hget]
          by_cases he : executive = h <;> simp [netReferences, he, List.count_cons]
    · push_neg at hex
      rw [Remove_not_found v executive port (le_of_eq hv.1) hex] at hr
      cases hr
      apply RemoveFinish_step _ _ _ hv.1
      intro h _
      simp [netReferences, executivesOf, SafeDownCast]

theorem Copy_step (fromInfo toInfo : vtkInformation) (hv : Valid toInfo)
    (r : vtkInformation × List RefCall) (hr : Copy fromInfo toInfo = some r) :
    StepOK toInfo r :=
  Set_step toInfo hv _ _ _ r hr

end vtkInformationExecutivePortVectorKey

theorem World.initial_Inv : World.initial.Inv := by
  intro m
  exact ⟨trivial, fun h _ => by simp [World.initial, netReferences, executivesOf, SafeDownCast]⟩

theorem World.update_Inv (w : World) (hw : w.Inv) (m : Nat) (r : vtkInformation × List RefCall)
    (hr : StepOK (w.info m) r) : (w.update m r).Inv := by
  intro k
  by_cases hk : k = m
  · subst hk
    simp only [World.update, Function.update_same]
    refine ⟨hr.1, fun h hh => ?_⟩
    rw [netReferences_append, (hw k).2 h hh, hr.2 h hh]
    ring
  · simp only [World.update, Function.update_noteq hk]
    exact hw k

theorem World.call_Inv (w : World) (hw : w.Inv) (c : Call) (w1 : World)
    (h : w.call c = some w1) : w1.Inv := by
  cases c with
  | Set m executives ports length =>
    simp only [World.call, Option.map_eq_some'] at h
    obtain ⟨r, hr, rfl⟩ := h
    exact w.update_Inv hw m r (Set_step _ (hw m).1 _ _ _ r hr)
  | Append m executive port =>
    simp only [World.call, Option.map_eq_some'] at h
    obtain ⟨r, hr, rfl⟩ := h
    exact w.update_Inv hw m r (Append_step _ (hw m).1 _ _ r hr)
  | Remove m executive port =>
    simp only [World.call, Option.map_eq_some'] at h
    obtain ⟨r, hr, rfl⟩ := h
    exact w.update_Inv hw m r (Remove_step _ (hw m).1 _ _ r hr)
  | Copy a b =>
    simp only [World.call, Option.map_eq_some'] at h
    obtain ⟨r, hr, rfl⟩ := h
    exact w.update_Inv hw b r (Copy_step _ _ (hw b).1 r hr)

theorem World.run_Inv (calls : List Call) : ∀ (w : World), w.Inv → ∀ w1 : World,
    w.run calls = some w1 → w1.Inv := by
  induction calls with
  | nil =>
    intro w hw w1 h
    simp only [World.run, Option.some.injEq] at h
    exact h ▸ hw
  | cons c cs ih =>
    intro w hw w1 h
    simp only [World.run] at h
    cases hc : w.call c with
    | none => simp [hc] at h
    | some w2 =>
      simp only [hc] at h
      exact ih w2 (w.call_Inv hw c w2 hc) w1 h

theorem Set_total (info : vtkInformation) (hv : Valid info)
    (executives : Option (List vtkExecutive)) (ports : Option (List Int)) (length : Int)
    (hwf : ∀ es ps, executives = some es → ports = some ps → 0 < length →
      length.toNat ≤ es.length ∧ length.toNat ≤ ps.length) :
    ∃ r, vtkInformationExecutivePortVectorKey.Set info executives ports length = some r := by
  by_cases hc : executives = none ∨ ports = none ∨ length ≤ 0
  · exact ⟨_, Set_clear info executives ports length hc⟩
  · push_neg at hc
    obtain ⟨h1, h2, hn⟩ := hc
    obtain ⟨es, rfl⟩ := Option.ne_none_iff_exists'.mp h1
    obtain ⟨ps, rfl⟩ := Option.ne_none_iff_exists'.mp h2
    obtain ⟨he, hp⟩ := hwf es ps rfl rfl hn
    exact ⟨_, Set_of_valid info hv es ps length hn he hp⟩

theorem Append_total (info : vtkInformation) (hv : Valid info)
    (executive : vtkExecutive) (port : Int) (h0 : executive ≠ 0) :
    ∃ r, vtkInformationExecutivePortVectorKey.Append info executive port = some r := by
  match info, hv with
  | none, hv =>
    simp only [vtkInformationExecutivePortVectorKey.Append, SafeDownCast, GetAsObjectBase]
    exact Set_total none hv _ _ _ (by intro es ps h1 h2 _; cases h1; cases h2; simp)
  | some (vtkObjectBase.OtherObject k), hv =>
    simp only [vtkInformationExecutivePortVectorKey.Append, SafeDownCast, GetAsObjectBase]
    exact Set_total _ hv _ _ _ (by intro es ps h1 h2 _; cases h1; cases h2; simp)
  | some (vtkObjectBase.ExecutivePortVectorValue v), hv =>
    simp [vtkInformationExecutivePortVectorKey.Append, SafeDownCast, GetAsObjectBase, h0]

theorem Remove_total (info : vtkInformation) (hv : Valid info)
    (executive : vtkExecutive) (port : Int) (h0 : executive ≠ 0) :
    ∃ r, Remove info executive port = some r := by
  match info, hv with
  | none, hv => simp [Remove, SafeDownCast, GetAsObjectBase]
  | some (vtkObjectBase.OtherObject k), hv => simp [Remove, SafeDownCast, GetAsObjectBase]
  | some (vtkObjectBase.ExecutivePortVectorValue v), hv =>
    by_cases hex : ∃ j, HoldsAt v.Executives v.Ports executive port j
    · obtain ⟨i, hfirst⟩ := first_of_holds _ _ _ _ hex
      exact ⟨_, Remove_found v executive port i h0 hfirst⟩
    · push_neg at hex
      exact ⟨_, Remove_not_found v executive port (le_of_eq hv.1) hex⟩

theorem Copy_total (fromInfo toInfo : vtkInformation) (hf : Valid fromInfo) (ht : Valid toInfo) :
    ∃ r, Copy fromInfo toInfo = some r := by
  apply Set_total toInfo ht
  intro es ps h1 h2 _
  match fromInfo, hf with
  | none, _ => simp [GetExecutives, SafeDownCast, GetAsObjectBase] at h1
  | some (vtkObjectBase.OtherObject k), _ =>
    simp [GetExecutives, SafeDownCast, GetAsObjectBase] at h1
  | some (vtkObjectBase.ExecutivePortVectorValue v), hf =>
    simp only [GetExecutives, GetPorts, SafeDownCast, GetAsObjectBase, Option.some.injEq] at h1 h2
    subst h1
    subst h2
    simp only [Length, SafeDownCast, GetAsObjectBase, Int.toNat_ofNat]
    exact ⟨le_refl _, le_of_eq hf.1⟩

theorem World.call_total (w : World) (hw : w.Inv) (c : Call) (hc : c.WellFormed) :
    ∃ w1, w.call c = some w1 := by
  cases c with
  | Set m executives ports length =>
    obtain ⟨r, hr⟩ := Set_total (w.info m) (hw m).1 executives ports length (by
      intro es ps h1 h2 hn
      subst h1
      subst h2
      have := hc hn
      omega)
    exact ⟨w.update m r, by simp [World.call, hr]⟩
  | Append m executive port =>
    obtain ⟨r, hr⟩ := Append_total (w.info m) (hw m).1 executive port hc
    exact ⟨w.update m r, by simp [World.call, hr]⟩
  | Remove m executive port =>
    obtain ⟨r, hr⟩ := Remove_total (w.info m) (hw m).1 executive port hc
    exact ⟨w.update m r, by simp [World.call, hr]⟩
  | Copy a b =>
    obtain ⟨r, hr⟩ := Copy_total (w.info a) (w.info b) (hw a).1 (hw b).1
    exact ⟨w.update b r, by simp [World.call, hr]⟩

theorem World.run_total (calls : List Call) : ∀ (w : World), w.Inv →
    (∀ c ∈ calls, c.WellFormed) → ∃ w1, w.run calls = some w1 := by
  induction calls with
  | nil => intro w _ _; exact ⟨w, rfl⟩
  | cons c cs ih =>
    intro w hw hwf
    obtain ⟨w2, h2⟩ := w.call_total hw c (hwf c (List.mem_cons_self _ _))
    obtain ⟨w1, h1⟩ := ih w2 (w.call_Inv hw c w2 h2) (fun d hd => hwf d (List.mem_cons_of_mem _ hd))
    exact ⟨w1, by simp [World.run, h2, h1]⟩

theorem Get_of_value (es : List vtkExecutive) (ps : List Int) (outH : List vtkExecutive)
    (outP : List Int) (h1 : es.length ≤ outH.length) (h2 : ps.length ≤ outP.length) :
    Get (some (vtkObjectBase.ExecutivePortVectorValue ⟨es, ps⟩)) outH outP
      = some (es ++ outH.drop es.length, ps ++ outP.drop ps.length) := by
  simp [Get, SafeDownCast, GetAsObjectBase, copy, h1, h2]

theorem Copy_of_valid (fromInfo toInfo : vtkInformation) (hf : Valid fromInfo)
    (ht : Valid toInfo) :
    Copy fromInfo toInfo
      = some ((SafeDownCast fromInfo).map vtkObjectBase.ExecutivePortVectorValue,
              RegisterAll (executivesOf fromInfo) ++ deleteCalls toInfo) := by
  match fromInfo, hf with
  | none, _ =>
    simp only [Copy, GetExecutives, GetPorts, Length, SafeDownCast, GetAsObjectBase]
    rw [Set_clear toInfo none none 0 (Or.inl rfl)]
    simp [executivesOf, SafeDownCast, RegisterAll]
  | some (vtkObjectBase.OtherObject k), _ =>
    simp only [Copy, GetExecutives, GetPorts, Length, SafeDownCast, GetAsObjectBase]
    rw [Set_clear toInfo none none 0 (Or.inl rfl)]
    simp [executivesOf, SafeDownCast, RegisterAll]
  | some (vtkObjectBase.ExecutivePortVectorValue v), hf =>
    have hpos : 0 < v.Executives.length := List.length_pos.mpr hf.2
    simp only [Copy, GetExecutives, GetPorts, Length, SafeDownCast, GetAsObjectBase]
    rw [Set_of_valid toInfo ht v.Executives v.Ports v.Executives.length
      (by exact_mod_cast hpos) (by simp) (by simp [hf.1])]
    have t1 : v.Executives.take v.Executives.length = v.Executives := List.take_length _
    have t2 : v.Ports.take v.Executives.length = v.Ports := by
      rw [hf.1]
      exact List.take_length _
    simp only [Int.toNat_ofNat, t1, t2, executivesOf, SafeDownCast, Option.map_some']

/-! ## The claims -/

/-- C1 (reference-count exactness). Start from a world in which no information
object has a slot under the key and make any finite sequence of `Set`,
`Append`, `Remove(handle, port)` and `Copy` calls. If the calls return, then
for every information object and every owner-handle `h` (a non-null
executive) the `Register` calls minus the `UnRegister` calls the key has made
on `h` for that slot equal the number of occurrences of `h` in the slot's
handle sequence, and are 0 when the slot is absent. The calls do return when
`Set` is given arrays of the stated length and `Append` and `Remove` a non-null
executive. -/
theorem C1_reference_count_exact (calls : List Call) :
    ((∀ c ∈ calls, c.WellFormed) → ∃ w, World.initial.run calls = some w) ∧
    ∀ w, World.initial.run calls = some w → ∀ (m : Nat) (h : vtkExecutive), h ≠ 0 →
      netReferences h (w.calls m) = ((executivesOf (w.info m)).count h : Int) ∧
      (Has (w.info m) = 0 → netReferences h (w.calls m) = 0) := by
  refine ⟨World.run_total calls World.initial World.initial_Inv, ?_⟩
  intro w hw m h hh
  have hinv := World.run_Inv calls World.initial World.initial_Inv w hw m
  refine ⟨hinv.2 h hh, fun hhas => ?_⟩
  rw [hinv.2 h hh]
  match hm : w.info m with
  | none => simp [executivesOf, SafeDownCast]
  | some (vtkObjectBase.OtherObject k) => simp [executivesOf, SafeDownCast]
  | some (vtkObjectBase.ExecutivePortVectorValue v) =>
    simp [hm, Has, SafeDownCast, GetAsObjectBase] at hhas

/-- Witness of C1: after `Set(A, [11,12,11], [3,5,7], 3)`, `Append(A, 12, 9)`,
`Remove(A, 11, 3)`, `Copy(A, B)`, `Copy(B, B)` and `Remove(B, 12, 5)` the slot
of `A` holds executive 12 twice and two references on it. -/
theorem C1_reference_count_exact_witness :
    ∃ w, World.initial.run
        [Call.Set 0 (some [11, 12, 11]) (some [3, 5, 7]) 3, Call.Append 0 12 9,
         Call.Remove 0 11 3, Call.Copy 0 1, Call.Copy 1 1, Call.Remove 1 12 5] = some w ∧
      (executivesOf (w.info 0)).count 12 = 2 ∧ netReferences 12 (w.calls 0) = 2 := by
  obtain ⟨w, hw⟩ := (C1_reference_count_exact
    [Call.Set 0 (some [11, 12, 11]) (some [3, 5, 7]) 3, Call.Append 0 12 9,
     Call.Remove 0 11 3, Call.Copy 0 1, Call.Copy 1 1, Call.Remove 1 12 5]).1 (by decide)
  have hc : (World.initial.run
      [Call.Set 0 (some [11, 12, 11]) (some [3, 5, 7]) 3, Call.Append 0 12 9,
       Call.Remove 0 11 3, Call.Copy 0 1, Call.Copy 1 1, Call.Remove 1 12 5]).map
      (fun w => (executivesOf (w.info 0)).count 12) = some 2 := by decide
  rw [hw] at hc
  have hc2 : (executivesOf (w.info 0)).count 12 = 2 := by simpa using hc
  have h := ((C1_reference_count_exact _).2 w hw 0 12 (by decide)).1
  exact ⟨w, hw, hc2, by rw [h, hc2]; rfl⟩

/-- C2 (no empty-but-present slot). In every state reached from a world
without slots by a sequence of `Set`, `Append`, `Remove(handle, port)` and
`Copy` calls, `Has(map)` is 1 exactly when `Length(map) > 0`, and a stored
value never holds an empty sequence. Such calls do return when `Set` is given
arrays of the stated length and `Append` and `Remove` a non-null executive. -/
theorem C2_no_empty_present_slot (calls : List Call) :
    ((∀ c ∈ calls, c.WellFormed) → ∃ w, World.initial.run calls = some w) ∧
    ∀ w, World.initial.run calls = some w → ∀ m : Nat,
      (Has (w.info m) = 1 ↔ 0 < Length (w.info m)) ∧
      ∀ v, SafeDownCast (GetAsObjectBase (w.info m)) = some v → v.Executives ≠ [] := by
  refine ⟨World.run_total calls World.initial World.initial_Inv, ?_⟩
  intro w hw m
  have hinv := (World.run_Inv calls World.initial World.initial_Inv w hw m).1
  match hm : w.info m with
  | none => simp [Has, Length, SafeDownCast, GetAsObjectBase]
  | some (vtkObjectBase.OtherObject k) => simp [Has, Length, SafeDownCast, GetAsObjectBase]
  | some (vtkObjectBase.ExecutivePortVectorValue v) =>
    rw [hm] at hinv
    have hne : v.Executives ≠ [] := hinv.2
    have hpos : 0 < v.Executives.length := List.length_pos.mpr hne
    simp only [Has, Length, SafeDownCast, GetAsObjectBase, true_iff]
    refine ⟨by exact_mod_cast hpos, ?_⟩
    intro v1 hv1
    cases hv1
    exact hne

/-- Witness of C2: setting two pairs and removing both leaves no slot, and
`Has` and `Length` agree on that. -/
theorem C2_no_empty_present_slot_witness :
    ∃ w, World.initial.run
        [Call.Set 0 (some [11, 12]) (some [3, 5]) 2, Call.Remove 0 11 3,
         Call.Remove 0 12 5] = some w ∧
      (Has (w.info 0) = 1 ↔ 0 < Length (w.info 0)) := by
  obtain ⟨w, hw⟩ := (C2_no_empty_present_slot
    [Call.Set 0 (some [11, 12]) (some [3, 5]) 2, Call.Remove 0 11 3,
     Call.Remove 0 12 5]).1 (by decide)
  exact ⟨w, hw, ((C2_no_empty_present_slot _).2 w hw 0).1⟩


/-- What `Remove` does of C3 for a non-null handle (it removes only the first
match). For a slot with parallel sequences that contains the pair `(h, p)`,
`h` non-null, with `i` the smallest index where the pair occurs:
`Remove(map, h, p)` returns, the handle and port sequences afterwards are the
old ones with exactly index `i` erased, `Length` drops by exactly 1, and the
calls made are exactly one `UnRegister` on `h`. -/
theorem C3_Remove_first_match (v : vtkInformationExecutivePortVectorValue)
    (executive : vtkExecutive) (port : Int) (i : Nat)
    (hlen : v.Executives.length = v.Ports.length) (hnull : executive ≠ 0)
    (hfirst : FirstAt v.Executives v.Ports executive port i) :
    ∃ info1, Remove (some (vtkObjectBase.ExecutivePortVectorValue v)) executive port
        = some (info1, [RefCall.UnRegister executive]) ∧
      executivesOf info1 = v.Executives.eraseIdx i ∧
      portsOf info1 = v.Ports.eraseIdx i ∧
      Length info1 = Length (some (vtkObjectBase.ExecutivePortVectorValue v)) - 1 := by
  have hi : i < v.Executives.length := (List.getElem?_eq_some_iff.mp hfirst.1.1).1
  have hip : i < v.Ports.length := (List.getElem?_eq_some_iff.mp hfirst.1.2).1
  rw [Remove_found v executive port i hnull hfirst]
  by_cases hempty : v.Executives.eraseIdx i = []
  · have hl : v.Executives.length = 1 := by
      have := congrArg List.length hempty
      simp only [List.length_eraseIdx, hi, if_true, List.length_nil] at this
      omega
    have hp : v.Ports.eraseIdx i = [] := by
      apply List.eq_nil_of_length_eq_zero
      simp only [List.length_eraseIdx, hip, if_true]
      omega
    refine ⟨none, ?_, ?_, ?_, ?_⟩
    · simp [RemoveFinish, hempty, SetAsObjectBase, vtkObjectBase.Delete, destructor,
        UnRegisterAllExecutives]
    · simp [executivesOf, SafeDownCast, hempty]
    · simp [portsOf, SafeDownCast, hp]
    · simp [Length, SafeDownCast, GetAsObjectBase, hl]
  · refine ⟨some (vtkObjectBase.ExecutivePortVectorValue
        ⟨v.Executives.eraseIdx i, v.Ports.eraseIdx i⟩), ?_, ?_, ?_, ?_⟩
    · simp [RemoveFinish, hempty]
    · simp [executivesOf, SafeDownCast]
    · simp [portsOf, SafeDownCast]
    · simp only [Length, SafeDownCast, GetAsObjectBase, List.length_eraseIdx, hi, if_true]
      omega

/-- An instance of the above: of the two pairs `(2, 6)` in `[1,2,1,2] / [5,6,5,6]` the one
at index 1 is removed and the one at index 3 stays. -/
theorem C3_Remove_first_match_witness :
    ∃ info1, Remove (some (vtkObjectBase.ExecutivePortVectorValue ⟨[1, 2, 1, 2], [5, 6, 5, 6]⟩)) 2 6
        = some (info1, [RefCall.UnRegister 2]) ∧
      executivesOf info1 = [1, 1, 2] ∧ portsOf info1 = [5, 5, 6] ∧
      Length info1 = Length (some (vtkObjectBase.ExecutivePortVectorValue
        ⟨[1, 2, 1, 2], [5, 6, 5, 6]⟩)) - 1 :=
  C3_Remove_first_match ⟨[1, 2, 1, 2], [5, 6, 5, 6]⟩ 2 6 1 (by decide) (by decide) (by decide)

/-- C4 (`Remove` with nothing to remove). On a slot as the key keeps it
(absent, or two parallel non-empty sequences): if the slot is absent, or no
index holds both handle `h` and port `p`, then `Remove(map, h, p)` returns
without a fault, the entry and both sequences are what they were and no
`Register` or `UnRegister` call is made. -/
theorem C4_Remove_no_match (info : vtkInformation) (hv : Valid info)
    (executive : vtkExecutive) (port : Int)
    (hno : Has info = 0 ∨
      ∀ j, ¬ HoldsAt (executivesOf info) (portsOf info) executive port j) :
    Remove info executive port = some (info, []) := by
  match info, hv with
  | none, _ => rfl
  | some (vtkObjectBase.OtherObject k), _ => rfl
  | some (vtkObjectBase.ExecutivePortVectorValue v), hv =>
    have hno2 : ∀ j, ¬ HoldsAt v.Executives v.Ports executive port j := by
      rcases hno with h | h
      · simp [Has, SafeDownCast, GetAsObjectBase] at h
      · simpa [executivesOf, portsOf, SafeDownCast] using h
    rw [Remove_not_found v executive port (le_of_eq hv.1) hno2]
    have : v.Executives ≠ [] := hv.2
    simp [RemoveFinish, this]

/-- Witness of C4: in `[1,2] / [5,6]` handle 1 occurs with port 5 and port 6
with handle 2, so `Remove(map, 1, 6)` changes nothing. -/
theorem C4_Remove_no_match_witness :
    Remove (some (vtkObjectBase.ExecutivePortVectorValue ⟨[1, 2], [5, 6]⟩)) 1 6
      = some (some (vtkObjectBase.ExecutivePortVectorValue ⟨[1, 2], [5, 6]⟩), []) :=
  C4_Remove_no_match (some (vtkObjectBase.ExecutivePortVectorValue ⟨[1, 2], [5, 6]⟩))
    (by decide) 1 6 (Or.inr (by
      intro j
      match j with
      | 0 => decide
      | 1 => decide
      | (k + 2) => simp [HoldsAt, executivesOf, SafeDownCast]))

/-- What `Remove` does of C5 for a non-null handle (removing the last pair
clears the slot). For a slot whose sequence is exactly the single pair
`(h, p)`, `h` non-null, `Remove(map, h, p)` returns, clears the entry, so that `Has` and
`Length` are 0, and makes exactly one `UnRegister` call on `h`, which releases
the one reference the slot held. -/
theorem C5_Remove_last_pair (executive : vtkExecutive) (port : Int) (hnull : executive ≠ 0) :
    ∃ info1 calls,
      Remove (some (vtkObjectBase.ExecutivePortVectorValue ⟨[executive], [port]⟩)) executive port
        = some (info1, calls) ∧
      info1 = none ∧ Has info1 = 0 ∧ Length info1 = 0 ∧
      calls = [RefCall.UnRegister executive] ∧
      netReferences executive (RefCall.Register executive :: calls) = 0 := by
  have hfirst : FirstAt [executive] [port] executive port 0 :=
    ⟨⟨rfl, rfl⟩, fun j hj => absurd hj (Nat.not_lt_zero j)⟩
  refine ⟨none, [RefCall.UnRegister executive], ?_, rfl, rfl, rfl, rfl, ?_⟩
  · rw [Remove_found ⟨[executive], [port]⟩ executive port 0 hnull hfirst]
    simp [RemoveFinish, SetAsObjectBase, vtkObjectBase.Delete, destructor,
      UnRegisterAllExecutives]
  · simp [netReferences, List.count_cons]

/-- An instance of the above at the pair `(12, 5)`. -/
theorem C5_Remove_last_pair_witness :
    ∃ info1 calls,
      Remove (some (vtkObjectBase.ExecutivePortVectorValue ⟨[12], [5]⟩)) 12 5
        = some (info1, calls) ∧
      info1 = none ∧ Has info1 = 0 ∧ Length info1 = 0 ∧
      calls = [RefCall.UnRegister 12] ∧
      netReferences 12 (RefCall.Register 12 :: calls) = 0 :=
  C5_Remove_last_pair 12 5 (by decide)


/-- C6 (`Append`). For a non-null handle `h`: if a slot is present with
sequences `(H, P)`, `Append(map, h, p)` returns with the sequences
`(H ++ [h], P ++ [p])`, `Length` increased by exactly 1 and exactly one
`Register` call, on `h`; if no slot is present, the call is
`Set(map, [h], [p], 1)`, which returns with the sequences `([h], [p])` after
one `Register` call on `h` and the deletion of what the entry held. -/
theorem C6_Append (info : vtkInformation) (executive : vtkExecutive) (port : Int)
    (hnull : executive ≠ 0) :
    (∀ v, SafeDownCast (GetAsObjectBase info) = some v →
      ∃ info1, Append info executive port = some (info1, [RefCall.Register executive]) ∧
        executivesOf info1 = v.Executives ++ [executive] ∧
        portsOf info1 = v.Ports ++ [port] ∧
        Length info1 = Length info + 1) ∧
    (SafeDownCast (GetAsObjectBase info) = none →
      Append info executive port = Set info (some [executive]) (some [port]) 1 ∧
      Append info executive port
        = some (some (vtkObjectBase.ExecutivePortVectorValue ⟨[executive], [port]⟩),
                RefCall.Register executive :: deleteCalls info)) := by
  constructor
  · intro v hv
    refine ⟨some (vtkObjectBase.ExecutivePortVectorValue
      ⟨v.Executives ++ [executive], v.Ports ++ [port]⟩), ?_, ?_, ?_, ?_⟩
    · simp [vtkInformationExecutivePortVectorKey.Append, hv, hnull]
    · simp [executivesOf, SafeDownCast]
    · simp [portsOf, SafeDownCast]
    · simp only [Length]
      rw [hv]
      simp [SafeDownCast, GetAsObjectBase]
  · intro hnone
    have h1 : Append info executive port = Set info (some [executive]) (some [port]) 1 := by
      simp [vtkInformationExecutivePortVectorKey.Append, hnone]
    refine ⟨h1, ?_⟩
    have hvalid : Valid info := by
      match info, hnone with
      | none, _ => trivial
      | some (vtkObjectBase.OtherObject k), _ => trivial
      | some (vtkObjectBase.ExecutivePortVectorValue v), h =>
        simp [SafeDownCast, GetAsObjectBase] at h
    rw [h1, Set_of_valid info hvalid [executive] [port] 1 (by decide) (by simp) (by simp)]
    simp [RegisterAll, hnull]

/-- Witness of C6: scenario 2 of the spec, `Append(map, 12, 5)` on
`[11] / [3]`, and the same call on a map without a slot. -/
theorem C6_Append_witness :
    (∃ info1, Append (some (vtkObjectBase.ExecutivePortVectorValue ⟨[11], [3]⟩)) 12 5
        = some (info1, [RefCall.Register 12]) ∧
      executivesOf info1 = [11, 12] ∧ portsOf info1 = [3, 5] ∧
      Length info1 = Length (some (vtkObjectBase.ExecutivePortVectorValue ⟨[11], [3]⟩)) + 1) ∧
    Append none 12 5 = some (some (vtkObjectBase.ExecutivePortVectorValue ⟨[12], [5]⟩),
      [RefCall.Register 12]) :=
  ⟨(C6_Append (some (vtkObjectBase.ExecutivePortVectorValue ⟨[11], [3]⟩)) 12 5 (by decide)).1
      ⟨[11], [3]⟩ rfl,
   ((C6_Append none 12 5 (by decide)).2 rfl).2⟩

/-- C7 (`Set`/`Get` round trip). On a slot as the key keeps it (absent, or two
parallel non-empty sequences, of the same length as the arrays or not) and for
arrays `handles`, `ports` of length `n > 0`: `Set(map, handles, ports, n)`
returns; afterwards `Length(map) == n`, the slot's sequences are exactly
`handles` and `ports`, and `Get(map, outH, outP)` on buffers of at least `n`
elements overwrites their first `n` elements with `handles` and `ports`. -/
theorem C7_Set_Get_round_trip (info : vtkInformation) (hv : Valid info)
    (handles : List vtkExecutive) (ports : List Int) (n : Int) (hn : 0 < n)
    (hh : (handles.length : Int) = n) (hp : (ports.length : Int) = n)
    (outH : List vtkExecutive) (outP : List Int)
    (hoH : handles.length ≤ outH.length) (hoP : ports.length ≤ outP.length) :
    ∃ info1 calls, Set info (some handles) (some ports) n = some (info1, calls) ∧
      Length info1 = n ∧
      executivesOf info1 = handles ∧ portsOf info1 = ports ∧
      Get info1 outH outP
        = some (handles ++ outH.drop handles.length, ports ++ outP.drop ports.length) := by
  have ht1 : handles.take n.toNat = handles := List.take_of_length_le (by omega)
  have ht2 : ports.take n.toNat = ports := List.take_of_length_le (by omega)
  have hset := Set_of_valid info hv handles ports n hn (by omega) (by omega)
  rw [ht1, ht2] at hset
  refine ⟨_, _, hset, ?_, rfl, rfl, Get_of_value handles ports outH outP hoH hoP⟩
  simp only [Length, SafeDownCast, GetAsObjectBase]
  exact hh

/-- Witness of C7: a slot `[1,2] / [5,6]` is replaced by three pairs and read
back into buffers of four elements. -/
theorem C7_Set_Get_round_trip_witness :
    ∃ info1 calls,
      Set (some (vtkObjectBase.ExecutivePortVectorValue ⟨[1, 2], [5, 6]⟩))
        (some [11, 0, 11]) (some [3, 4, 3]) 3 = some (info1, calls) ∧
      Length info1 = 3 ∧
      executivesOf info1 = [11, 0, 11] ∧ portsOf info1 = [3, 4, 3] ∧
      Get info1 [9, 9, 9, 9] [8, 8, 8, 8] = some ([11, 0, 11, 9], [3, 4, 3, 8]) :=
  C7_Set_Get_round_trip (some (vtkObjectBase.ExecutivePortVectorValue ⟨[1, 2], [5, 6]⟩))
    (by decide) [11, 0, 11] [3, 4, 3] 3 (by decide) (by decide) (by decide)
    [9, 9, 9, 9] [8, 8, 8, 8] (by decide) (by decide)

/-- C8 (`Set` clears on degenerate input). For every entry, if `length <= 0`
or the executives array is null or the ports array is null, `Set` returns with
the entry cleared, so that `Has` and `Length` are 0; the calls it makes are
one `UnRegister` for each non-null element of the previous handle sequence, in
order, and no `Register` call at all. -/
theorem C8_Set_clears (info : vtkInformation) (executives : Option (List vtkExecutive))
    (ports : Option (List Int)) (length : Int)
    (h : length ≤ 0 ∨ executives = none ∨ ports = none) :
    ∃ info1 calls, Set info executives ports length = some (info1, calls) ∧
      Has info1 = 0 ∧ Length info1 = 0 ∧
      calls = ((executivesOf info).filter (fun e => e ≠ 0)).map RefCall.UnRegister ∧
      (∀ e, RefCall.Register e ∉ calls) ∧
      ∀ e, e ≠ 0 → calls.count (RefCall.UnRegister e) = (executivesOf info).count e := by
  have hcalls : deleteCalls info
      = ((executivesOf info).filter (fun e => e ≠ 0)).map RefCall.UnRegister := by
    match info with
    | none => rfl
    | some (vtkObjectBase.OtherObject k) => rfl
    | some (vtkObjectBase.ExecutivePortVectorValue v) => rfl
  refine ⟨none, deleteCalls info, Set_clear info executives ports length (by tauto), rfl, rfl,
    hcalls, ?_, ?_⟩
  · intro e he
    rw [hcalls] at he
    simp at he
  · intro e he
    rw [hcalls, count_UnRegister_map_UnRegister, count_filter_nonnull e he]

/-- Witness of C8: a zero length clears `[11, 0, 11] / [3, 4, 3]` with two
`UnRegister` calls on 11, whatever the arrays are. -/
theorem C8_Set_clears_witness :
    ∃ info1 calls,
      Set (some (vtkObjectBase.ExecutivePortVectorValue ⟨[11, 0, 11], [3, 4, 3]⟩))
        (some [7]) (some [1]) 0 = some (info1, calls) ∧
      Has info1 = 0 ∧ Length info1 = 0 ∧
      calls = ((executivesOf (some (vtkObjectBase.ExecutivePortVectorValue
        ⟨[11, 0, 11], [3, 4, 3]⟩))).filter (fun e => e ≠ 0)).map RefCall.UnRegister ∧
      (∀ e, RefCall.Register e ∉ calls) ∧
      ∀ e, e ≠ 0 → calls.count (RefCall.UnRegister e)
        = (executivesOf (some (vtkObjectBase.ExecutivePortVectorValue
            ⟨[11, 0, 11], [3, 4, 3]⟩))).count e :=
  C8_Set_clears (some (vtkObjectBase.ExecutivePortVectorValue ⟨[11, 0, 11], [3, 4, 3]⟩))
    (some [7]) (some [1]) 0 (Or.inl (by decide))


/-- C9 (`Copy` round trip). For information objects `A` and `B`, `B` distinct
from `A`, each holding a slot as the key keeps it or none (whatever `B` held):
`Copy(A, B)` returns; afterwards `Length(B) == Length(A)`, the handle and port
sequences of `B` are those of `A`, `Get(B)` gives in any buffers what `Get(A)`
gives, the entry of `A` is unchanged, and `B` has no slot when `A` has none. -/
theorem C9_Copy_round_trip (w : World) (a b : Nat) (hab : a ≠ b)
    (ha : Valid (w.info a)) (hb : Valid (w.info b)) :
    ∃ w1, w.call (Call.Copy a b) = some w1 ∧
      Length (w1.info b) = Length (w.info a) ∧
      executivesOf (w1.info b) = executivesOf (w.info a) ∧
      portsOf (w1.info b) = portsOf (w.info a) ∧
      (∀ outH outP, Get (w1.info b) outH outP = Get (w.info a) outH outP) ∧
      w1.info a = w.info a ∧
      (Has (w.info a) = 0 → Has (w1.info b) = 0) := by
  have hcopy := Copy_of_valid (w.info a) (w.info b) ha hb
  refine ⟨w.update b ((SafeDownCast (w.info a)).map vtkObjectBase.ExecutivePortVectorValue,
    RegisterAll (executivesOf (w.info a)) ++ deleteCalls (w.info b)), ?_, ?_⟩
  · simp [World.call, hcopy]
  · simp only [World.update, Function.update_same, Function.update_noteq hab]
    match w.info a with
    | none => simp [SafeDownCast, Length, executivesOf, portsOf, Get, Has, GetAsObjectBase]
    | some (vtkObjectBase.OtherObject k) =>
      simp [SafeDownCast, Length, executivesOf, portsOf, Get, Has, GetAsObjectBase]
    | some (vtkObjectBase.ExecutivePortVectorValue v) =>
      simp [SafeDownCast, Length, executivesOf, portsOf, Get, Has, GetAsObjectBase]

/-- Witness of C9: `A` holds `[11, 12] / [3, 5]`, `B` held `[7] / [1]`. -/
theorem C9_Copy_round_trip_witness :
    ∃ w1, World.call ⟨fun m => if m = 0 then
              some (vtkObjectBase.ExecutivePortVectorValue ⟨[11, 12], [3, 5]⟩)
            else if m = 1 then some (vtkObjectBase.ExecutivePortVectorValue ⟨[7], [1]⟩)
            else none, fun _ => []⟩ (Call.Copy 0 1) = some w1 ∧
      Length (w1.info 1) = 2 ∧ executivesOf (w1.info 1) = [11, 12] ∧
      portsOf (w1.info 1) = [3, 5] ∧ executivesOf (w1.info 0) = [11, 12] := by
  obtain ⟨w1, h1, h2, h3, h4, _, h6, _⟩ := C9_Copy_round_trip
    ⟨fun m => if m = 0 then some (vtkObjectBase.ExecutivePortVectorValue ⟨[11, 12], [3, 5]⟩)
      else if m = 1 then some (vtkObjectBase.ExecutivePortVectorValue ⟨[7], [1]⟩)
      else none, fun _ => []⟩ 0 1 (by decide) (by decide) (by decide)
  exact ⟨w1, h1, h2, h3, h4, by rw [h6]; rfl⟩

/-- C10 (`Report` completeness). For every entry, the calls
`vtkGarbageCollectorReport(collector, executive, name)` made by
`Report(map, collector)` are, in call order, one for each element of the
slot's handle sequence, a handle that occurs `k` times being reported `k`
times, each with this key's name; when the slot is absent none is made. -/
theorem C10_Report_complete (key : vtkInformationExecutivePortVectorKey)
    (info : vtkInformation) (collector : List (vtkExecutive × String)) :
    Report key info collector
        = collector ++ (executivesOf info).map (fun e => (e, key.Name)) ∧
      (∀ e, ((executivesOf info).map (fun e => (e, key.Name))).count (e, key.Name)
        = (executivesOf info).count e) ∧
      (Has info = 0 → Report key info collector = collector) := by
  refine ⟨?_, ?_, ?_⟩
  · match info with
    | none => simp [Report, executivesOf, SafeDownCast, GetAsObjectBase]
    | some (vtkObjectBase.OtherObject k) =>
      simp [Report, executivesOf, SafeDownCast, GetAsObjectBase]
    | some (vtkObjectBase.ExecutivePortVectorValue v) =>
      simp [Report, executivesOf, SafeDownCast, GetAsObjectBase, GetName]
  · intro e
    induction executivesOf info with
    | nil => rfl
    | cons x xs ih => simp [List.count_cons, ih]
  · intro h
    match info, h with
    | none, _ => rfl
    | some (vtkObjectBase.OtherObject k), _ => rfl
    | some (vtkObjectBase.ExecutivePortVectorValue v), h =>
      simp [Has, SafeDownCast, GetAsObjectBase] at h

/-- Witness of C10: the executive 11, held at two ports, is reported twice;
nothing is reported for a map without a slot. -/
theorem C10_Report_complete_witness :
    Report ⟨"CONSUMERS", "vtkExecutive"⟩
        (some (vtkObjectBase.ExecutivePortVectorValue ⟨[11, 12, 11], [3, 5, 7]⟩)) []
      = [(11, "CONSUMERS"), (12, "CONSUMERS"), (11, "CONSUMERS")] ∧
    Report ⟨"CONSUMERS", "vtkExecutive"⟩ none [(7, "PRODUCER")] = [(7, "PRODUCER")] :=
  ⟨(C10_Report_complete ⟨"CONSUMERS", "vtkExecutive"⟩
      (some (vtkObjectBase.ExecutivePortVectorValue ⟨[11, 12, 11], [3, 5, 7]⟩)) []).1,
   (C10_Report_complete ⟨"CONSUMERS", "vtkExecutive"⟩ none [(7, "PRODUCER")]).2.2 rfl⟩

/-- C3 at its failing input, a null handle held in the slot: the slot
`[0, 7] / [5, 5]`, which `Set(map, [0, 7], [5, 5], 2)` builds under its
`if(executives[i])` guard, contains the pair `(0, 5)`, first at index 0.
`Remove(map, 0, 5)` finds the pair, erases it and then calls
`executive->UnRegister(0)` through the null pointer, without the guard that
`Set` and `UnRegisterAllExecutives` have: it faults, where the claim has the
first match removed and the rest of the sequence kept. -/
theorem C3_Remove_null_handle_faults :
    Set none (some [0, 7]) (some [5, 5]) 2
      = some (some (vtkObjectBase.ExecutivePortVectorValue ⟨[0, 7], [5, 5]⟩),
              [RefCall.Register 7]) ∧
    FirstAt [0, 7] [5, 5] 0 5 0 ∧
    Remove (some (vtkObjectBase.ExecutivePortVectorValue ⟨[0, 7], [5, 5]⟩)) 0 5 = none := by
  decide

/-- C5 at its failing input, a null handle as the only one of the slot: on the
slot that is exactly the pair `(0, 5)`, which `Set(map, [0], [5], 1)` builds
under its `if(executives[i])` guard, `Remove(map, 0, 5)` erases the pair and
then calls `executive->UnRegister(0)` through the null pointer: it faults
before it reaches `SetAsObjectBase(info, 0)`, where the claim has the entry
cleared. -/
theorem C5_Remove_last_null_pair_faults :
    Set none (some [0]) (some [5]) 1
      = some (some (vtkObjectBase.ExecutivePortVectorValue ⟨[0], [5]⟩), []) ∧
    Remove (some (vtkObjectBase.ExecutivePortVectorValue ⟨[0], [5]⟩)) 0 5 = none := by
  decide


namespace vtkInformationExecutivePortVectorKey

theorem Set_eq_paths (info : vtkInformation) (es : List vtkExecutive) (ps : List Int)
    (n : Int) (hn : 0 < n) (given : List vtkExecutive)
    (hg : readArray es n.toNat = some given) :
    Set info (some es) (some ps) n
      = match (SafeDownCast (GetAsObjectBase info)).filter
            (fun oldv => ((oldv.Executives.length : Int) = n)) with
        | some oldv => SetReplaceExisting oldv es ps n (RegisterAll given)
        | none => SetAllocateNew info es ps n (RegisterAll given) := by
  simp only [Set, if_pos hn, hg, SetReplaceExisting, SetAllocateNew]

theorem callsOf_append (a b : List SetEvent) : callsOf (a ++ b) = callsOf a ++ callsOf b := by
  induction a with
  | nil => rfl
  | cons x xs ih =>
    cases x with
    | call c => simp [callsOf, ih]
    | write w => simp [callsOf, ih]

theorem callsOf_map_call (l : List RefCall) : callsOf (l.map SetEvent.call) = l := by
  induction l with
  | nil => rfl
  | cons x xs ih => simp [callsOf, ih]

theorem entryAfter_map_call (info : vtkInformation) (l : List RefCall) (rest : List SetEvent) :
    entryAfter info (l.map SetEvent.call ++ rest) = entryAfter info rest := by
  induction l with
  | nil => rfl
  | cons x xs ih => simpa [entryAfter] using ih

theorem SetAsObjectBaseEvents_calls (info : vtkInformation) (value : Option vtkObjectBase) :
    callsOf (SetAsObjectBaseEvents info value) = (SetAsObjectBase info value).2 := by
  simp [SetAsObjectBaseEvents, callsOf, callsOf_map_call]

theorem SetAsObjectBaseEvents_entry (info0 info : vtkInformation)
    (value : Option vtkObjectBase) :
    entryAfter info0 (SetAsObjectBaseEvents info value) = (SetAsObjectBase info value).1 := by
  have := entryAfter_map_call value (SetAsObjectBase info value).2 []
  simp only [List.append_nil] at this
  simp only [SetAsObjectBaseEvents, entryAfter]
  rw [this]
  rfl

theorem SetEvents_Set (info : vtkInformation) (executives : Option (List vtkExecutive))
    (ports : Option (List Int)) (length : Int) :
    (SetEvents info executives ports length).map
        (fun evs => (entryAfter info evs, callsOf evs))
      = Set info executives ports length := by
  unfold SetEvents vtkInformationExecutivePortVectorKey.Set
  split
  · split
    · split
      · rfl
      · split
        · split
          · simp [callsOf_append, callsOf_map_call, entryAfter_map_call, entryAfter, callsOf,
              List.append_assoc]
          · rfl
        · split
          · simp [callsOf_append, callsOf_map_call, entryAfter_map_call,
              SetAsObjectBaseEvents_calls, SetAsObjectBaseEvents_entry]
          · rfl
    · simp [SetAsObjectBaseEvents_calls, SetAsObjectBaseEvents_entry]
  · simp [SetAsObjectBaseEvents_calls, SetAsObjectBaseEvents_entry]

end vtkInformationExecutivePortVectorKey

theorem netReferences_take_bound (h : vtkExecutive) (A B : List RefCall)
    (hA : ∀ e, RefCall.UnRegister e ∉ A) (hB : ∀ e, RefCall.Register e ∉ B) (k : Nat) :
    0 ≤ netReferences h ((A ++ B).take k) ∨
    (A.count (RefCall.Register h) : Int) - (B.count (RefCall.UnRegister h) : Int)
      ≤ netReferences h ((A ++ B).take k) := by
  rw [List.take_append_eq_append_take, netReferences_append]
  have h1 : (A.take k).count (RefCall.UnRegister h) = 0 :=
    List.count_eq_zero_of_not_mem (fun hm => hA h (List.mem_of_mem_take hm))
  have h2 : (B.take (k - A.length)).count (RefCall.Register h) = 0 :=
    List.count_eq_zero_of_not_mem (fun hm => hB h (List.mem_of_mem_take hm))
  have h3 : (B.take (k - A.length)).count (RefCall.UnRegister h) ≤ B.count (RefCall.UnRegister h) :=
    (List.take_sublist _ _).count_le _
  simp only [netReferences, h1, h2]
  by_cases hk : k < A.length
  · left
    have : k - A.length = 0 := by omega
    simp [this]
  · right
    have : A.take k = A := List.take_of_length_le (by omega)
    rw [this]
    omega

namespace vtkInformationExecutivePortVectorKey

theorem mem_callsOf (c : RefCall) (evs : List SetEvent) (h : SetEvent.call c ∈ evs) :
    c ∈ callsOf evs := by
  induction evs with
  | nil => simp at h
  | cons x xs ih =>
    cases x with
    | call d =>
      simp only [List.mem_cons, SetEvent.call.injEq] at h
      rcases h with h | h
      · simp [callsOf, h]
      · simp [callsOf, ih h]
    | write w =>
      simp only [List.mem_cons] at h
      rcases h with h | h
      · cases h
      · simp [callsOf, ih h]

theorem deleteCalls_eq (info : vtkInformation) :
    deleteCalls info
      = ((executivesOf info).filter (fun e => e ≠ 0)).map RefCall.UnRegister := by
  match info with
  | none => rfl
  | some (vtkObjectBase.OtherObject k) => rfl
  | some (vtkObjectBase.ExecutivePortVectorValue v) => rfl

theorem SetEvents_of_valid (info : vtkInformation) (hv : Valid info) (es : List vtkExecutive)
    (ps : List Int) (n : Int) (hn : 0 < n) (he : n.toNat ≤ es.length)
    (hp : n.toNat ≤ ps.length) :
    ∃ rest, SetEvents info (some es) (some ps) n
        = some ((RegisterAll (es.take n.toNat)).map SetEvent.call ++ rest) ∧
      callsOf rest = deleteCalls info ∧
      entryAfter info rest
        = some (vtkObjectBase.ExecutivePortVectorValue ⟨es.take n.toNat, ps.take n.toNat⟩) := by
  obtain ⟨k, rfl⟩ := Int.eq_ofNat_of_zero_le (le_of_lt hn)
  simp only [Int.toNat_ofNat] at he hp ⊢
  have hk : 0 < k := by exact_mod_cast hn
  match info, hv with
  | none, _ =>
    refine ⟨SetAsObjectBaseEvents none
      (some (vtkObjectBase.ExecutivePortVectorValue ⟨es.take k, ps.take k⟩)), ?_, ?_, ?_⟩
    · simp [SetEvents, hk, readArray, he, hp, SafeDownCast, GetAsObjectBase]
    · rw [SetAsObjectBaseEvents_calls]; rfl
    · rw [SetAsObjectBaseEvents_entry]; rfl
  | some (vtkObjectBase.OtherObject j), _ =>
    refine ⟨SetAsObjectBaseEvents (some (vtkObjectBase.OtherObject j))
      (some (vtkObjectBase.ExecutivePortVectorValue ⟨es.take k, ps.take k⟩)), ?_, ?_, ?_⟩
    · simp [SetEvents, hk, readArray, he, hp, SafeDownCast, GetAsObjectBase]
    · rw [SetAsObjectBaseEvents_calls]; rfl
    · rw [SetAsObjectBaseEvents_entry]; rfl
  | some (vtkObjectBase.ExecutivePortVectorValue v), hv =>
    obtain ⟨hlen, _⟩ := hv
    by_cases hsz : v.Executives.length = k
    · subst hsz
      have d1 : v.Executives.drop v.Executives.length = [] := List.drop_length _
      have d2 : v.Ports.drop v.Executives.length = [] := by rw [hlen]; exact List.drop_length _
      refine ⟨v.UnRegisterAllExecutives.map SetEvent.call ++
        [SetEvent.write (some (vtkObjectBase.ExecutivePortVectorValue
            ⟨es.take v.Executives.length, v.Ports⟩)),
         SetEvent.write (some (vtkObjectBase.ExecutivePortVectorValue
            ⟨es.take v.Executives.length, ps.take v.Executives.length⟩))], ?_, ?_, ?_⟩
      · simp [SetEvents, hk, readArray, he, hp, SafeDownCast, GetAsObjectBase, copy, d1, d2,
          Option.filter, ← hlen]
      · simp [callsOf_append, callsOf_map_call, callsOf, deleteCalls, vtkObjectBase.Delete,
          destructor]
      · rw [entryAfter_map_call]
        rfl
    · refine ⟨SetAsObjectBaseEvents (some (vtkObjectBase.ExecutivePortVectorValue v))
        (some (vtkObjectBase.ExecutivePortVectorValue ⟨es.take k, ps.take k⟩)), ?_, ?_, ?_⟩
      · simp [SetEvents, hk, readArray, he, hp, SafeDownCast, GetAsObjectBase, hsz,
          Option.filter]
      · rw [SetAsObjectBaseEvents_calls]; rfl
      · rw [SetAsObjectBaseEvents_entry]; rfl

end vtkInformationExecutivePortVectorKey

/-- C11 (`Set` acquires before it releases). On a slot as the key keeps it and
for non-null arrays of length `n > 0`, the steps of `Set(map, handles, ports,
n)` are: first the `Register` calls of the register loop, one for each
element of `handles` that is an executive (non-null), and among them no write
to the entry; then the rest, in which every call is an `UnRegister` of the old
slot value and where all writes to the entry are. Hence for a handle that
occurs both in the old slot and in the new array, a reference count that
starts at no less than the references the old slot holds, which may be all
there are, is positive after every prefix of the calls. -/
theorem C11_Set_acquires_before_releases (info : vtkInformation) (hv : Valid info)
    (handles : List vtkExecutive) (ports : List Int) (n : Int) (hn : 0 < n)
    (hh : (handles.length : Int) = n) (hp : (ports.length : Int) = n) :
    ∃ rest, SetEvents info (some handles) (some ports) n
        = some ((RegisterAll handles).map SetEvent.call ++ rest) ∧
      (∀ h, h ≠ 0 → (RegisterAll handles).count (RefCall.Register h) = handles.count h) ∧
      (∀ w, SetEvent.write w ∉ (RegisterAll handles).map SetEvent.call) ∧
      (∀ e, SetEvent.call (RefCall.Register e) ∉ rest) ∧
      callsOf rest = ((executivesOf info).filter (fun e => e ≠ 0)).map RefCall.UnRegister ∧
      Set info (some handles) (some ports) n
        = some (entryAfter info rest, RegisterAll handles ++ callsOf rest) ∧
      ∀ h, h ≠ 0 → h ∈ executivesOf info → h ∈ handles →
        ∀ c0 : Int, ((executivesOf info).count h : Int) ≤ c0 →
          ∀ k, 0 < c0 + netReferences h ((RegisterAll handles ++ callsOf rest).take k) := by
  have ht1 : handles.take n.toNat = handles := List.take_of_length_le (by omega)
  have ht2 : ports.take n.toNat = ports := List.take_of_length_le (by omega)
  obtain ⟨rest, hev, hcalls, hentry⟩ :=
    SetEvents_of_valid info hv handles ports n hn (by omega) (by omega)
  rw [ht1] at hev
  rw [ht1, ht2] at hentry
  have hset := Set_of_valid info hv handles ports n hn (by omega) (by omega)
  rw [ht1, ht2] at hset
  have hun : callsOf rest
      = ((executivesOf info).filter (fun e => e ≠ 0)).map RefCall.UnRegister := by
    rw [hcalls, deleteCalls_eq]
  refine ⟨rest, hev, ?_, ?_, ?_, hun, ?_, ?_⟩
  · intro h hh0
    rw [RegisterAll, count_Register_map_Register, count_filter_nonnull h hh0]
  · intro w hw
    simp at hw
  · intro e he
    have := mem_callsOf _ _ he
    rw [hun] at this
    simp at this
  · rw [hset, hentry, hcalls]
  · intro h hh0 hold hnew c0 hc0 k
    have hb := netReferences_take_bound h (RegisterAll handles) (callsOf rest)
      (by intro e he; simp [RegisterAll] at he)
      (by intro e he; rw [hun] at he; simp at he) k
    have c1 : (RegisterAll handles).count (RefCall.Register h) = handles.count h := by
      rw [RegisterAll, count_Register_map_Register, count_filter_nonnull h hh0]
    have c2 : (callsOf rest).count (RefCall.UnRegister h) = (executivesOf info).count h := by
      rw [hun, count_UnRegister_map_UnRegister, count_filter_nonnull h hh0]
    have p1 : 0 < handles.count h := List.count_pos_iff.mpr hnew
    have p2 : 0 < (executivesOf info).count h := List.count_pos_iff.mpr hold
    rw [c1, c2] at hb
    rcases hb with hb | hb <;> omega

/-- Witness of C11: the slot `[11] / [3]` holds the only reference on 11 and is
set to `[12, 11] / [5, 3]`; the count of 11 goes 1, 2, 1 and is never zero. -/
theorem C11_Set_acquires_before_releases_witness :
    ∃ rest, SetEvents (some (vtkObjectBase.ExecutivePortVectorValue ⟨[11], [3]⟩))
        (some [12, 11]) (some [5, 3]) 2
        = some ((RegisterAll [12, 11]).map SetEvent.call ++ rest) ∧
      callsOf rest = [RefCall.UnRegister 11] ∧
      ∀ k, 0 < (1 : Int) + netReferences 11 ((RegisterAll [12, 11] ++ callsOf rest).take k) := by
  obtain ⟨rest, h1, _, _, _, h5, _, h7⟩ := C11_Set_acquires_before_releases
    (some (vtkObjectBase.ExecutivePortVectorValue ⟨[11], [3]⟩)) (by decide)
    [12, 11] [5, 3] 2 (by decide) (by decide) (by decide)
  exact ⟨rest, h1, h5, h7 11 (by decide) (by decide) (by decide) 1 (by decide)⟩

/-- C17 (queries on an absent slot). When the map has no value under the key,
or a value of another class, for which `SafeDownCast` gives null:
`GetExecutives` and `GetPorts` return null, `Length` and `Has` return 0, and
`Get` returns with both caller buffers as they were. The embedded queries
yield nothing but these results: they make no call and write no entry. -/
theorem C17_queries_on_absent_slot (info : vtkInformation)
    (habsent : info = none ∨ ∃ k, info = some (vtkObjectBase.OtherObject k))
    (executives : List vtkExecutive) (ports : List Int) :
    GetExecutives info = none ∧ GetPorts info = none ∧ Length info = 0 ∧ Has info = 0 ∧
      Get info executives ports = some (executives, ports) := by
  rcases habsent with h | ⟨k, h⟩ <;> subst h <;>
    simp [GetExecutives, GetPorts, Length, Has, Get, SafeDownCast, GetAsObjectBase]

/-- Witness of C17 on a map that holds an object of another class under the
key. -/
theorem C17_queries_on_absent_slot_witness :
    GetExecutives (some (vtkObjectBase.OtherObject 4)) = none ∧
      GetPorts (some (vtkObjectBase.OtherObject 4)) = none ∧
      Length (some (vtkObjectBase.OtherObject 4)) = 0 ∧
      Has (some (vtkObjectBase.OtherObject 4)) = 0 ∧
      Get (some (vtkObjectBase.OtherObject 4)) [9, 9] [8] = some ([9, 9], [8]) :=
  C17_queries_on_absent_slot (some (vtkObjectBase.OtherObject 4)) (Or.inr ⟨4, rfl⟩) [9, 9] [8]

/-- C19 (the two storage paths of `Set` agree). For an existing slot value
with parallel sequences of length `n > 0` and arrays of length `n`: `Set`
takes the in-place path, that path returns, and the allocate-and-replace path
run from the same state returns the same entry, hence the same handle and port
sequences, and the same calls, hence the same reference count on every
handle. -/
theorem C19_Set_paths_agree (oldv : vtkInformationExecutivePortVectorValue)
    (handles : List vtkExecutive) (ports : List Int) (n : Int) (hn : 0 < n)
    (hold : (oldv.Executives.length : Int) = n)
    (hpar : oldv.Executives.length = oldv.Ports.length)
    (hh : (handles.length : Int) = n) (hp : (ports.length : Int) = n) :
    ∃ r1 r2,
      Set (some (vtkObjectBase.ExecutivePortVectorValue oldv)) (some handles) (some ports) n
        = SetReplaceExisting oldv handles ports n (RegisterAll handles) ∧
      SetReplaceExisting oldv handles ports n (RegisterAll handles) = some r1 ∧
      SetAllocateNew (some (vtkObjectBase.ExecutivePortVectorValue oldv)) handles ports n
        (RegisterAll handles) = some r2 ∧
      executivesOf r1.1 = handles ∧ executivesOf r2.1 = handles ∧
      portsOf r1.1 = ports ∧ portsOf r2.1 = ports ∧
      (∀ h, netReferences h r1.2 = netReferences h r2.2) ∧ r1 = r2 := by
  have ht1 : handles.take n.toNat = handles := List.take_of_length_le (by omega)
  have ht2 : ports.take n.toNat = ports := List.take_of_length_le (by omega)
  have d1 : oldv.Executives.drop n.toNat = [] := List.drop_eq_nil_of_le (by omega)
  have d2 : oldv.Ports.drop n.toNat = [] := List.drop_eq_nil_of_le (by omega)
  have hg : readArray handles n.toNat = some handles := by
    simp only [readArray, ht1]
    rw [if_pos (by omega)]
  have hgp : readArray ports n.toNat = some ports := by
    simp only [readArray, ht2]
    rw [if_pos (by omega)]
  have hc1 : copy handles n.toNat oldv.Executives = some handles := by
    simp only [copy, ht1, d1, List.append_nil]
    rw [if_pos ⟨by omega, by omega⟩]
  have hc2 : copy ports n.toNat oldv.Ports = some ports := by
    simp only [copy, ht2, d2, List.append_nil]
    rw [if_pos ⟨by omega, by omega⟩]
  refine ⟨(some (vtkObjectBase.ExecutivePortVectorValue ⟨handles, ports⟩),
      RegisterAll handles ++ oldv.UnRegisterAllExecutives),
    (some (vtkObjectBase.ExecutivePortVectorValue ⟨handles, ports⟩),
      RegisterAll handles ++ oldv.UnRegisterAllExecutives), ?_, ?_, ?_, rfl, rfl, rfl, rfl,
    fun _ => rfl, rfl⟩
  · rw [Set_eq_paths _ handles ports n hn handles hg]
    simp [SafeDownCast, GetAsObjectBase, Option.filter, hold]
  · simp only [SetReplaceExisting, hc1, hc2]
  · simp only [SetAllocateNew, hg, hgp, SetAsObjectBase, vtkObjectBase.Delete, destructor]

/-- Witness of C19: `[1, 2] / [5, 6]` set to `[2, 0] / [7, 8]`. -/
theorem C19_Set_paths_agree_witness :
    ∃ r1 r2,
      Set (some (vtkObjectBase.ExecutivePortVectorValue ⟨[1, 2], [5, 6]⟩))
          (some [2, 0]) (some [7, 8]) 2
        = SetReplaceExisting ⟨[1, 2], [5, 6]⟩ [2, 0] [7, 8] 2 (RegisterAll [2, 0]) ∧
      SetReplaceExisting ⟨[1, 2], [5, 6]⟩ [2, 0] [7, 8] 2 (RegisterAll [2, 0]) = some r1 ∧
      SetAllocateNew (some (vtkObjectBase.ExecutivePortVectorValue ⟨[1, 2], [5, 6]⟩))
        [2, 0] [7, 8] 2 (RegisterAll [2, 0]) = some r2 ∧
      executivesOf r1.1 = [2, 0] ∧ executivesOf r2.1 = [2, 0] ∧
      portsOf r1.1 = [7, 8] ∧ portsOf r2.1 = [7, 8] ∧
      (∀ h, netReferences h r1.2 = netReferences h r2.2) ∧ r1 = r2 :=
  C19_Set_paths_agree ⟨[1, 2], [5, 6]⟩ [2, 0] [7, 8] 2 (by decide) (by decide) (by decide)
    (by decide) (by decide)

/-- C20 (self-copy is the identity). For an information object `A` that holds
a slot as the key keeps it, or none: `Copy(A, A)` returns; the entry of `A`,
and with it the handle sequence, the port sequence, `Has` and `Length`, is
what it was when a slot was present, and `Has` and `Length` stay 0 otherwise;
the calls made leave the reference count of every handle as it was; and a
reference count that starts positive and at no less than the references the
slot holds is positive after every prefix of the calls. -/
theorem C20_self_copy_identity (w : World) (a : Nat) (hv : Valid (w.info a)) :
    ∃ calls w1, w.call (Call.Copy a a) = some w1 ∧
      w1.calls a = w.calls a ++ calls ∧
      executivesOf (w1.info a) = executivesOf (w.info a) ∧
      portsOf (w1.info a) = portsOf (w.info a) ∧
      Has (w1.info a) = Has (w.info a) ∧ Length (w1.info a) = Length (w.info a) ∧
      (∀ m, m ≠ a → w1.info m = w.info m ∧ w1.calls m = w.calls m) ∧
      (∀ h, netReferences h calls = 0) ∧
      ∀ h (c0 : Int), 0 < c0 → ((executivesOf (w.info a)).count h : Int) ≤ c0 →
        ∀ k, 0 < c0 + netReferences h (calls.take k) := by
  have hcopy := Copy_of_valid (w.info a) (w.info a) hv hv
  have hA : ∀ e, RefCall.UnRegister e ∉ RegisterAll (executivesOf (w.info a)) := by
    intro e he; simp [RegisterAll] at he
  have hB : ∀ e, RefCall.Register e ∉ deleteCalls (w.info a) := by
    intro e he; rw [deleteCalls_eq] at he; simp at he
  have hcnt : ∀ h, (RegisterAll (executivesOf (w.info a))).count (RefCall.Register h)
      = (deleteCalls (w.info a)).count (RefCall.UnRegister h) := by
    intro h
    rw [deleteCalls_eq, RegisterAll, count_Register_map_Register,
      count_UnRegister_map_UnRegister]
  have hle : ∀ h, (deleteCalls (w.info a)).count (RefCall.UnRegister h)
      ≤ (executivesOf (w.info a)).count h := by
    intro h
    rw [deleteCalls_eq, count_UnRegister_map_UnRegister]
    exact (List.filter_sublist _).count_le _
  refine ⟨RegisterAll (executivesOf (w.info a)) ++ deleteCalls (w.info a),
    w.update a ((SafeDownCast (w.info a)).map vtkObjectBase.ExecutivePortVectorValue,
      RegisterAll (executivesOf (w.info a)) ++ deleteCalls (w.info a)), ?_, ?_, ?_, ?_, ?_, ?_,
    ?_, ?_, ?_⟩
  · simp [World.call, hcopy]
  · simp [World.update]
  · simp only [World.update, Function.update_same]
    match w.info a with
    | none => rfl
    | some (vtkObjectBase.OtherObject k) => rfl
    | some (vtkObjectBase.ExecutivePortVectorValue v) => rfl
  · simp only [World.update, Function.update_same]
    match w.info a with
    | none => rfl
    | some (vtkObjectBase.OtherObject k) => rfl
    | some (vtkObjectBase.ExecutivePortVectorValue v) => rfl
  · simp only [World.update, Function.update_same]
    match w.info a with
    | none => rfl
    | some (vtkObjectBase.OtherObject k) => rfl
    | some (vtkObjectBase.ExecutivePortVectorValue v) => rfl
  · simp only [World.update, Function.update_same]
    match w.info a with
    | none => rfl
    | some (vtkObjectBase.OtherObject k) => rfl
    | some (vtkObjectBase.ExecutivePortVectorValue v) => rfl
  · intro m hm
    simp [World.update, Function.update_noteq hm]
  · intro h
    rw [netReferences_append]
    simp only [netReferences]
    have h1 : (RegisterAll (executivesOf (w.info a))).count (RefCall.UnRegister h) = 0 :=
      List.count_eq_zero_of_not_mem (hA h)
    have h2 : (deleteCalls (w.info a)).count (RefCall.Register h) = 0 :=
      List.count_eq_zero_of_not_mem (hB h)
    rw [h1, h2, hcnt h]
    omega
  · intro h c0 hpos hc0 k
    have hb := netReferences_take_bound h _ _ hA hB k
    have := hcnt h
    have := hle h
    rcases hb with hb | hb <;> omega

/-- Witness of C20: self-copy of a slot that holds executive 11 twice, whose
two references are the only ones on it. -/
theorem C20_self_copy_identity_witness :
    ∃ calls w1, World.call ⟨fun _ => some (vtkObjectBase.ExecutivePortVectorValue
          ⟨[11, 12, 11], [3, 5, 7]⟩), fun _ => []⟩ (Call.Copy 0 0) = some w1 ∧
      executivesOf (w1.info 0) = [11, 12, 11] ∧ portsOf (w1.info 0) = [3, 5, 7] ∧
      netReferences 11 calls = 0 ∧
      ∀ k, 0 < (2 : Int) + netReferences 11 (calls.take k) := by
  obtain ⟨calls, w1, h1, _, h3, h4, _, _, _, h8, h9⟩ := C20_self_copy_identity
    ⟨fun _ => some (vtkObjectBase.ExecutivePortVectorValue ⟨[11, 12, 11], [3, 5, 7]⟩),
      fun _ => []⟩ 0 (by decide)
  exact ⟨calls, w1, h1, h3, h4, h8 11, h9 11 2 (by decide) (by decide)⟩

namespace vtkInformationExecutivePortVectorKey

theorem zip_erase_first (executive : vtkExecutive) (port : Int) :
    ∀ (es : List vtkExecutive) (ps : List Int) (i : Nat),
      FirstAt es ps executive port i →
      (es.zip ps).erase (executive, port) = (es.eraseIdx i).zip (ps.eraseIdx i) := by
  intro es
  induction es with
  | nil =>
    intro ps i hf
    have := hf.1.1
    simp at this
  | cons x xs ih =>
    intro ps i hf
    cases ps with
    | nil =>
      have := hf.1.2
      simp at this
    | cons y ys =>
      cases i with
      | zero =>
        obtain ⟨⟨h1, h2⟩, _⟩ := hf
        simp only [List.getElem?_cons_zero, Option.some.injEq] at h1 h2
        subst h1
        subst h2
        simp
      | succ j =>
        have hne : ¬ (x = executive ∧ y = port) := by
          intro hxy
          exact hf.2 0 (Nat.succ_pos j) ⟨by simp [hxy.1], by simp [hxy.2]⟩
        have hrec : FirstAt xs ys executive port j := by
          refine ⟨⟨by simpa using hf.1.1, by simpa using hf.1.2⟩, ?_⟩
          intro k hk hh
          exact hf.2 (k + 1) (by omega) ⟨by simpa using hh.1, by simpa using hh.2⟩
        have hb : ¬ ((x, y) == (executive, port)) = true := by
          simp only [beq_iff_eq, Prod.mk.injEq]
          exact hne
        simp only [List.zip_cons_cons, List.eraseIdx_cons_succ]
        rw [List.erase_cons_tail hb, ih ys j hrec]

theorem holds_of_mem_zip (executive : vtkExecutive) (port : Int) :
    ∀ (es : List vtkExecutive) (ps : List Int), (executive, port) ∈ es.zip ps →
      ∃ j, HoldsAt es ps executive port j := by
  intro es
  induction es with
  | nil => intro ps h; simp at h
  | cons x xs ih =>
    intro ps h
    cases ps with
    | nil => simp at h
    | cons y ys =>
      simp only [List.zip_cons_cons, List.mem_cons, Prod.mk.injEq] at h
      rcases h with ⟨h1, h2⟩ | h
      · exact ⟨0, by simp [HoldsAt, h1, h2]⟩
      · obtain ⟨j, hj⟩ := ih ys h
        exact ⟨j + 1, by simpa [HoldsAt] using hj⟩

theorem pairsOf_Set (info : vtkInformation) (hv : Valid info)
    (executives : Option (List vtkExecutive)) (ports : Option (List Int)) (length : Int)
    (r : vtkInformation × List RefCall) (hr : Set info executives ports length = some r) :
    pairsOf r.1 = match executives, ports with
      | some es, some ps =>
        if 0 < length then (es.take length.toNat).zip (ps.take length.toNat) else []
      | _, _ => [] := by
  by_cases hc : executives = none ∨ ports = none ∨ length ≤ 0
  · rw [Set_clear info executives ports length hc] at hr
    cases hr
    rcases hc with h | h | h
    · subst h; rfl
    · subst h; cases executives <;> rfl
    · cases executives with
      | none => rfl
      | some es =>
        cases ports with
        | none => rfl
        | some ps =>
          simp only [pairsOf, executivesOf, portsOf, SafeDownCast]
          rw [if_neg (by omega)]
          rfl
  · push_neg at hc
    obtain ⟨h1, h2, hn⟩ := hc
    obtain ⟨es, rfl⟩ := Option.ne_none_iff_exists'.mp h1
    obtain ⟨ps, rfl⟩ := Option.ne_none_iff_exists'.mp h2
    by_cases hb : length.toNat ≤ es.length ∧ length.toNat ≤ ps.length
    · rw [Set_of_valid info hv es ps length hn hb.1 hb.2] at hr
      cases hr
      simp only [pairsOf, executivesOf, portsOf, SafeDownCast]
      rw [if_pos hn]
    · rw [Set_fault info hv es ps length hn (by omega)] at hr
      cases hr

theorem pairsOf_Append (info : vtkInformation) (hv : Valid info)
    (executive : vtkExecutive) (port : Int)
    (r : vtkInformation × List RefCall) (hr : Append info executive port = some r) :
    pairsOf r.1 = pairsOf info ++ [(executive, port)] := by
  match info, hv with
  | none, hv =>
    have := pairsOf_Set none hv _ _ _ r
      (by simpa [vtkInformationExecutivePortVectorKey.Append, SafeDownCast, GetAsObjectBase]
        using hr)
    simpa [pairsOf, executivesOf, portsOf, SafeDownCast] using this
  | some (vtkObjectBase.OtherObject k), hv =>
    have := pairsOf_Set _ hv _ _ _ r
      (by simpa [vtkInformationExecutivePortVectorKey.Append, SafeDownCast, GetAsObjectBase]
        using hr)
    simpa [pairsOf, executivesOf, portsOf, SafeDownCast] using this
  | some (vtkObjectBase.ExecutivePortVectorValue v), hv =>
    by_cases h0 : executive = 0
    · simp [vtkInformationExecutivePortVectorKey.Append, SafeDownCast, GetAsObjectBase, h0] at hr
    · simp only [vtkInformationExecutivePortVectorKey.Append, SafeDownCast, GetAsObjectBase,
        if_neg h0, Option.some.injEq] at hr
      subst hr
      simp only [pairsOf, executivesOf, portsOf, SafeDownCast]
      rw [List.zip_append hv.1]
      rfl

theorem pairsOf_RemoveFinish (v : vtkInformationExecutivePortVectorValue)
    (calls : List RefCall) :
    pairsOf (RemoveFinish v calls).1 = v.Executives.zip v.Ports := by
  by_cases hempty : v.Executives = []
  · simp [RemoveFinish, hempty, SetAsObjectBase, pairsOf, executivesOf, portsOf, SafeDownCast]
  · simp [RemoveFinish, hempty, pairsOf, executivesOf, portsOf, SafeDownCast]

theorem pairsOf_Remove (info : vtkInformation) (hv : Valid info)
    (executive : vtkExecutive) (port : Int)
    (r : vtkInformation × List RefCall) (hr : Remove info executive port = some r) :
    pairsOf r.1 = (pairsOf info).erase (executive, port) := by
  match info, hv with
  | none, hv =>
    simp only [Remove, SafeDownCast, GetAsObjectBase, Option.some.injEq] at hr
    subst hr
    rfl
  | some (vtkObjectBase.OtherObject k), hv =>
    simp only [Remove, SafeDownCast, GetAsObjectBase, Option.some.injEq] at hr
    subst hr
    rfl
  | some (vtkObjectBase.ExecutivePortVectorValue v), hv =>
    by_cases hex : ∃ j, HoldsAt v.Executives v.Ports executive port j
    · obtain ⟨i, hfirst⟩ := first_of_holds _ _ _ _ hex
      by_cases h0 : executive = 0
      · subst h0
        rw [Remove_fault_null v port i hfirst] at hr
        cases hr
      · rw [Remove_found v executive port i h0 hfirst] at hr
        cases hr
        rw [pairsOf_RemoveFinish]
        simp only [pairsOf, executivesOf, portsOf, SafeDownCast]
        exact (zip_erase_first executive port _ _ i hfirst).symm
    · rw [Remove_not_found v executive port (le_of_eq hv.1) (not_exists.mp hex)] at hr
      cases hr
      rw [pairsOf_RemoveFinish]
      simp only [pairsOf, executivesOf, portsOf, SafeDownCast]
      rw [List.erase_of_not_mem]
      intro hm
      exact hex (holds_of_mem_zip executive port _ _ hm)

theorem pairsOf_Copy (fromInfo toInfo : vtkInformation) (hf : Valid fromInfo)
    (ht : Valid toInfo) (r : vtkInformation × List RefCall)
    (hr : Copy fromInfo toInfo = some r) :
    pairsOf r.1 = pairsOf fromInfo := by
  rw [Copy_of_valid fromInfo toInfo hf ht] at hr
  cases hr
  match fromInfo with
  | none => rfl
  | some (vtkObjectBase.OtherObject k) => rfl
  | some (vtkObjectBase.ExecutivePortVectorValue v) => rfl

end vtkInformationExecutivePortVectorKey

theorem World.call_pairs (w : World) (hw : w.Inv) (c : Call) (w1 : World)
    (h : w.call c = some w1) : w1.pairs = Call.onPairs w.pairs c := by
  cases c with
  | Set m executives ports length =>
    simp only [World.call, Option.map_eq_some'] at h
    obtain ⟨r, hr, rfl⟩ := h
    have hp := pairsOf_Set _ (hw m).1 _ _ _ r hr
    funext k
    by_cases hk : k = m
    · subst hk
      cases executives <;> cases ports <;>
        simp [World.pairs, World.update, Call.onPairs, hp]
    · cases executives <;> cases ports <;>
        simp [World.pairs, World.update, Call.onPairs, Function.update_noteq hk]
  | Append m executive port =>
    simp only [World.call, Option.map_eq_some'] at h
    obtain ⟨r, hr, rfl⟩ := h
    have hp := pairsOf_Append _ (hw m).1 _ _ r hr
    funext k
    by_cases hk : k = m
    · subst hk
      simp [World.pairs, World.update, Call.onPairs, hp]
    · simp [World.pairs, World.update, Call.onPairs, Function.update_noteq hk]
  | Remove m executive port =>
    simp only [World.call, Option.map_eq_some'] at h
    obtain ⟨r, hr, rfl⟩ := h
    have hp := pairsOf_Remove _ (hw m).1 _ _ r hr
    funext k
    by_cases hk : k = m
    · subst hk
      simp [World.pairs, World.update, Call.onPairs, hp]
    · simp [World.pairs, World.update, Call.onPairs, Function.update_noteq hk]
  | Copy a b =>
    simp only [World.call, Option.map_eq_some'] at h
    obtain ⟨r, hr, rfl⟩ := h
    have hp := pairsOf_Copy _ _ (hw a).1 (hw b).1 r hr
    funext k
    by_cases hk : k = b
    · subst hk
      simp [World.pairs, World.update, Call.onPairs, hp]
    · simp [World.pairs, World.update, Call.onPairs, Function.update_noteq hk]

theorem World.run_pairs (calls : List Call) : ∀ (w : World), w.Inv → ∀ w1 : World,
    w.run calls = some w1 → w1.pairs = calls.foldl Call.onPairs w.pairs := by
  induction calls with
  | nil =>
    intro w _ w1 h
    simp only [World.run, Option.some.injEq] at h
    subst h
    rfl
  | cons c cs ih =>
    intro w hw w1 h
    simp only [World.run] at h
    cases hc : w.call c with
    | none => simp [hc] at h
    | some w2 =>
      simp only [hc] at h
      rw [List.foldl_cons, ← w.call_pairs hw c w2 hc]
      exact ih w2 (w.call_Inv hw c w2 hc) w1 h

theorem World.run_take (calls : List Call) : ∀ (w w1 : World),
    w.run calls = some w1 → ∀ k, ∃ wk, w.run (calls.take k) = some wk := by
  induction calls with
  | nil => intro w w1 _ k; exact ⟨w, by simp [World.run]⟩
  | cons c cs ih =>
    intro w w1 h k
    cases k with
    | zero => exact ⟨w, by simp [World.run]⟩
    | succ j =>
      simp only [World.run] at h
      cases hc : w.call c with
      | none => simp [hc] at h
      | some w2 =>
        simp only [hc] at h
        obtain ⟨wk, hwk⟩ := ih w2 w1 h j
        exact ⟨wk, by simp [World.run, hc, hwk]⟩

/-- C16 (parallel-sequence invariant). Start from a world without slots and
make any sequence of `Append`, `Remove(handle, port)`, `Set` and `Copy` calls
that returns. After every call, in every information object, the handle
sequence and the port sequence have the same length, and they are the first
and second components of one sequence of pairs: the one the spec's operations
on pairs give (`Append` adds the pair at the end, `Remove` erases the first
equal pair, `Set` stores the pairs of the arrays). The calls do return when
`Set` is given arrays of the stated length and `Append` and `Remove` a non-null
executive. -/
theorem C16_parallel_sequences (calls : List Call) :
    ((∀ c ∈ calls, c.WellFormed) → ∃ w, World.initial.run calls = some w) ∧
    ∀ w, World.initial.run calls = some w → ∀ k,
      ∃ wk, World.initial.run (calls.take k) = some wk ∧ ∀ m : Nat,
        (executivesOf (wk.info m)).length = (portsOf (wk.info m)).length ∧
        pairsOf (wk.info m) = ((calls.take k).foldl Call.onPairs (fun _ => [])) m ∧
        executivesOf (wk.info m) = (pairsOf (wk.info m)).map Prod.fst ∧
        portsOf (wk.info m) = (pairsOf (wk.info m)).map Prod.snd := by
  refine ⟨World.run_total calls World.initial World.initial_Inv, ?_⟩
  intro w hw k
  obtain ⟨wk, hwk⟩ := World.run_take calls World.initial w hw k
  refine ⟨wk, hwk, fun m => ?_⟩
  have hinv := (World.run_Inv _ World.initial World.initial_Inv wk hwk m).1
  have hpairs := World.run_pairs _ World.initial World.initial_Inv wk hwk
  have hlen : (executivesOf (wk.info m)).length = (portsOf (wk.info m)).length := by
    match hm : wk.info m with
    | none => rfl
    | some (vtkObjectBase.OtherObject j) => rfl
    | some (vtkObjectBase.ExecutivePortVectorValue v) =>
      rw [hm] at hinv
      exact hinv.1
  refine ⟨hlen, ?_, ?_, ?_⟩
  · have := congrFun hpairs m
    simpa [World.pairs, World.initial, pairsOf, executivesOf, portsOf, SafeDownCast] using this
  · rw [pairsOf, List.map_fst_zip _ _ (le_of_eq hlen)]
  · rw [pairsOf, List.map_snd_zip _ _ (le_of_eq hlen.symm)]

/-- Witness of C16: after the first three of four calls the slot holds the
pairs `(12, 5)`, `(11, 3)`, `(12, 5)` minus the first `(12, 5)`. -/
theorem C16_parallel_sequences_witness :
    ∃ wk, World.initial.run
        [Call.Set 0 (some [12, 11]) (some [5, 3]) 2, Call.Append 0 12 5,
         Call.Remove 0 12 5] = some wk ∧
      pairsOf (wk.info 0) = [(11, 3), (12, 5)] ∧
      (executivesOf (wk.info 0)).length = (portsOf (wk.info 0)).length := by
  obtain ⟨w, hw⟩ := (C16_parallel_sequences
    [Call.Set 0 (some [12, 11]) (some [5, 3]) 2, Call.Append 0 12 5,
     Call.Remove 0 12 5, Call.Remove 0 11 3]).1 (by decide)
  obtain ⟨wk, h1, h2⟩ := (C16_parallel_sequences _).2 w hw 3
  refine ⟨wk, h1, ?_, (h2 0).1⟩
  rw [(h2 0).2.1]
  decide

end VTK

namespace VTKParallel

open vtkPieceRequestFilter vtkInformationKey vtkInformationEntry

/-- C12 (dispatch priority). For every request, `ProcessRequest` calls exactly
one handler and returns what it returns: `RequestData` if `REQUEST_DATA` is
present; otherwise `RequestDataObject` if `REQUEST_DATA_OBJECT` is present;
otherwise `RequestUpdateExtent` if `REQUEST_UPDATE_EXTENT` is present; otherwise
the `ProcessRequest` of the superclass. -/
theorem C12_dispatch_priority (Superclass : vtkInformation → Pipeline → Option (Int × Pipeline))
    (request : vtkInformation) (p : Pipeline) :
    (ProcessRequest Superclass request p).1.length = 1 ∧
    (request.Has REQUEST_DATA = true →
      ProcessRequest Superclass request p = ([Handler.RequestData], RequestData p)) ∧
    (request.Has REQUEST_DATA = false → request.Has REQUEST_DATA_OBJECT = true →
      ProcessRequest Superclass request p
        = ([Handler.RequestDataObject], RequestDataObject p)) ∧
    (request.Has REQUEST_DATA = false → request.Has REQUEST_DATA_OBJECT = false →
      request.Has REQUEST_UPDATE_EXTENT = true →
      ProcessRequest Superclass request p
        = ([Handler.RequestUpdateExtent], RequestUpdateExtent p)) ∧
    (request.Has REQUEST_DATA = false → request.Has REQUEST_DATA_OBJECT = false →
      request.Has REQUEST_UPDATE_EXTENT = false →
      ProcessRequest Superclass request p
        = ([Handler.SuperclassProcessRequest], Superclass request p)) := by
  refine ⟨?_, ?_, ?_, ?_, ?_⟩
  · unfold ProcessRequest
    split
    · rfl
    · split
      · rfl
      · split <;> rfl
  · intro h1
    simp [ProcessRequest, h1]
  · intro h1 h2
    simp [ProcessRequest, h1, h2]
  · intro h1 h2 h3
    simp [ProcessRequest, h1, h2, h3]
  · intro h1 h2 h3
    simp [ProcessRequest, h1, h2, h3]

/-- Witness of C12: a request that carries all three discriminators goes to
`RequestData` alone, one that carries the last two to `RequestDataObject`. -/
theorem C12_dispatch_priority_witness :
    ProcessRequest (fun _ _ => none) (fun _ => some RequestValue)
        ⟨⟨8, 2, 1, [fun _ => none]⟩, [[fun _ => none]], [fun _ => none]⟩
      = ([Handler.RequestData],
         RequestData ⟨⟨8, 2, 1, [fun _ => none]⟩, [[fun _ => none]], [fun _ => none]⟩) ∧
    ProcessRequest (fun _ _ => none)
        (fun k => if k = REQUEST_DATA then none else some RequestValue)
        ⟨⟨8, 2, 1, [fun _ => none]⟩, [[fun _ => none]], [fun _ => none]⟩
      = ([Handler.RequestDataObject],
         RequestDataObject ⟨⟨8, 2, 1, [fun _ => none]⟩, [[fun _ => none]], [fun _ => none]⟩) :=
  ⟨(C12_dispatch_priority (fun _ _ => none) (fun _ => some RequestValue)
      ⟨⟨8, 2, 1, [fun _ => none]⟩, [[fun _ => none]], [fun _ => none]⟩).2.1 (by decide),
   (C12_dispatch_priority (fun _ _ => none)
      (fun k => if k = REQUEST_DATA then none else some RequestValue)
      ⟨⟨8, 2, 1, [fun _ => none]⟩, [[fun _ => none]], [fun _ => none]⟩).2.2.1
      (by decide) (by decide)⟩

/-- C15 (`RequestUpdateExtent`). For a filter with `Piece = p` and
`NumberOfPieces = n` and an input information object present, the handler
returns 1; in the information object of the single input `UPDATE_PIECE_NUMBER`
is then `p` and `UPDATE_NUMBER_OF_PIECES` is `n`, every other entry is what it
was, and no other input information object, no output information object and
nothing of the filter has changed. `ProcessRequest` gives the same for a
request whose only discriminator is `REQUEST_UPDATE_EXTENT`. -/
theorem C15_RequestUpdateExtent (p : Pipeline) (v : vtkInformationVector)
    (inInfo : vtkInformation) (hv : p.inputVector[0]? = some v)
    (hi : v.GetInformationObject 0 = some inInfo) :
    ∃ p1 v1 inInfo1, RequestUpdateExtent p = some (1, p1) ∧
      p1.inputVector[0]? = some v1 ∧ v1.GetInformationObject 0 = some inInfo1 ∧
      inInfo1 UPDATE_PIECE_NUMBER = some (IntegerValue p.self.Piece) ∧
      inInfo1 UPDATE_NUMBER_OF_PIECES = some (IntegerValue p.self.NumberOfPieces) ∧
      (∀ k, k ≠ UPDATE_PIECE_NUMBER → k ≠ UPDATE_NUMBER_OF_PIECES → inInfo1 k = inInfo k) ∧
      (∀ j, j ≠ 0 → v1[j]? = v[j]?) ∧
      (∀ j, j ≠ 0 → p1.inputVector[j]? = p.inputVector[j]?) ∧
      p1.outputVector = p.outputVector ∧ p1.self = p.self ∧
      ∀ Superclass request, vtkInformation.Has request REQUEST_DATA = false →
        vtkInformation.Has request REQUEST_DATA_OBJECT = false →
        vtkInformation.Has request REQUEST_UPDATE_EXTENT = true →
        (ProcessRequest Superclass request p).2 = some (1, p1) := by
  have hvl : 0 < v.length := by
    simp only [vtkInformationVector.GetInformationObject] at hi
    exact (List.getElem?_eq_some_iff.mp hi).1
  have hpl : 0 < p.inputVector.length := (List.getElem?_eq_some_iff.mp hv).1
  have hrun : RequestUpdateExtent p = some (1, ⟨p.self, p.inputVector.set 0
      (v.set 0 ((inInfo.SetInteger UPDATE_NUMBER_OF_PIECES p.self.NumberOfPieces).SetInteger
        UPDATE_PIECE_NUMBER p.self.Piece)), p.outputVector⟩) := by
    simp only [RequestUpdateExtent, hv, hi]
  refine ⟨_, v.set 0 ((inInfo.SetInteger UPDATE_NUMBER_OF_PIECES
      p.self.NumberOfPieces).SetInteger UPDATE_PIECE_NUMBER p.self.Piece),
    (inInfo.SetInteger UPDATE_NUMBER_OF_PIECES p.self.NumberOfPieces).SetInteger
      UPDATE_PIECE_NUMBER p.self.Piece, hrun,
    ?_, ?_, ?_, ?_, ?_, ?_, ?_, rfl, rfl, ?_⟩
  · simp [hpl]
  · simp [vtkInformationVector.GetInformationObject, hvl]
  · simp [vtkInformation.SetInteger]
  · simp [vtkInformation.SetInteger]
  · intro k h1 h2
    simp [vtkInformation.SetInteger, Function.update_noteq h1, Function.update_noteq h2]
  · intro j hj
    simp [List.getElem?_set, Ne.symm hj]
  · intro j hj
    simp [List.getElem?_set, Ne.symm hj]
  · intro S request h1 h2 h3
    simp [ProcessRequest, h1, h2, h3, hrun]

/-- Witness of C15: scenario 5 of the spec, piece 2 of 8 pieces. -/
theorem C15_RequestUpdateExtent_witness :
    ∃ p1 v1 inInfo1,
      RequestUpdateExtent ⟨⟨8, 2, 1, [fun _ => none]⟩,
          [[fun k => if k = OtherKey 7 then some (OtherValue 3) else none]],
          [fun _ => none]⟩ = some (1, p1) ∧
      p1.inputVector[0]? = some v1 ∧ v1.GetInformationObject 0 = some inInfo1 ∧
      inInfo1 UPDATE_PIECE_NUMBER = some (IntegerValue 2) ∧
      inInfo1 UPDATE_NUMBER_OF_PIECES = some (IntegerValue 8) ∧
      inInfo1 (OtherKey 7) = some (OtherValue 3) := by
  obtain ⟨p1, v1, inInfo1, h1, h2, h3, h4, h5, h6, _⟩ := C15_RequestUpdateExtent
    ⟨⟨8, 2, 1, [fun _ => none]⟩,
      [[fun k => if k = OtherKey 7 then some (OtherValue 3) else none]], [fun _ => none]⟩
    [fun k => if k = OtherKey 7 then some (OtherValue 3) else none]
    (fun k => if k = OtherKey 7 then some (OtherValue 3) else none) rfl rfl
  exact ⟨p1, v1, inInfo1, h1, h2, h3, h4, h5,
    by rw [h6 (OtherKey 7) (by decide) (by decide)]; rfl⟩

end VTKParallel

namespace VTKParallel

open vtkPieceRequestFilter vtkInformationKey vtkInformationEntry

theorem RequestDataObjectPort_spec (input : vtkDataObject) (q : Pipeline) (i : Nat)
    (info : vtkInformation) (hinfo : q.outputVector[i]? = some info)
    (hport : 0 < q.self.OutputPortInformation.length) :
    ∃ q1, RequestDataObjectPort input q i = some q1 ∧
      q1.inputVector = q.inputVector ∧
      q1.self.NumberOfPieces = q.self.NumberOfPieces ∧ q1.self.Piece = q.self.Piece ∧
      q1.self.NumberOfOutputPorts = q.self.NumberOfOutputPorts ∧
      q1.outputVector.length = q.outputVector.length ∧
      q1.self.OutputPortInformation.length = q.self.OutputPortInformation.length ∧
      q1.outputVector[i]? = some (outputAfter input info) ∧
      (∀ k, k ≠ i → q1.outputVector[k]? = q.outputVector[k]?) ∧
      (∀ j, j ≠ 0 → q1.self.OutputPortInformation[j]? = q.self.OutputPortInformation[j]?) := by
  have hi : i < q.outputVector.length := (List.getElem?_eq_some_iff.mp hinfo).1
  obtain ⟨portInfo, hp⟩ : ∃ portInfo, q.self.OutputPortInformation[0]? = some portInfo :=
    ⟨_, List.getElem?_eq_getElem hport⟩
  by_cases hk : keepsOutput input info = true
  · refine ⟨q, ?_, rfl, rfl, rfl, rfl, rfl, rfl, ?_, fun _ _ => rfl, fun _ _ => rfl⟩
    · simp only [RequestDataObjectPort, vtkInformationVector.GetInformationObject, hinfo]
      simp only [keepsOutput] at hk
      cases hg : info.GetDataObject with
      | none => simp [hg] at hk
      | some o =>
        simp only [hg] at hk
        simp [hk]
    · simp [outputAfter, hk, hinfo]
  · have hcond : (match info.GetDataObject with
        | none => true
        | some o => !o.IsA input.GetClassName) = true := by
      simp only [keepsOutput] at hk
      cases hg : info.GetDataObject with
      | none => rfl
      | some o =>
        simp only [hg] at hk
        simpa using hk
    refine ⟨⟨⟨q.self.NumberOfPieces, q.self.Piece, q.self.NumberOfOutputPorts,
        q.self.OutputPortInformation.set 0
          (portInfo.SetInteger DATA_EXTENT_TYPE input.NewInstance.GetExtentType)⟩,
      q.inputVector,
      q.outputVector.set i (SetPipelineInformation input.NewInstance info)⟩,
      ?_, rfl, rfl, rfl, rfl, ?_, ?_, ?_, ?_, ?_⟩
    · simp only [RequestDataObjectPort, vtkInformationVector.GetInformationObject, hinfo,
        hcond, if_true, vtkPieceRequestFilter.GetOutputPortInformation, hp]
    · simp
    · simp
    · simp [outputAfter, hk, hi]
    · intro k hki
      simp [List.getElem?_set, Ne.symm hki]
    · intro j hj
      simp [List.getElem?_set, Ne.symm hj]

theorem RequestDataObject_loop (input : vtkDataObject) (p : Pipeline) :
    ∀ n, n ≤ p.outputVector.length → n ≤ p.self.OutputPortInformation.length →
      ∃ q, (List.range n).foldlM (RequestDataObjectPort input) p = some q ∧
        LoopInvariant input p n q := by
  intro n
  induction n with
  | zero =>
    intro _ _
    refine ⟨p, rfl, rfl, rfl, rfl, rfl, rfl, rfl, ?_, fun _ _ => rfl, fun _ _ => rfl⟩
    intro i hi
    omega
  | succ n ih =>
    intro h1 h2
    obtain ⟨q, hq, hinv⟩ := ih (by omega) (by omega)
    obtain ⟨e1, e2, e3, e4, e5, e6, e7, e8, e9⟩ := hinv
    have hn : n < p.outputVector.length := by omega
    have hinfo : q.outputVector[n]? = some p.outputVector[n] := by
      rw [e8 n (le_refl _), List.getElem?_eq_getElem hn]
    obtain ⟨q1, hq1, f1, f2, f3, f4, f5, f6, f7, f8, f9⟩ :=
      RequestDataObjectPort_spec input q n _ hinfo (by omega)
    refine ⟨q1, ?_, f1.trans e1, f2.trans e2, f3.trans e3, f4.trans e4, f5.trans e5,
      f6.trans e6, ?_, ?_, ?_⟩
    · rw [List.range_succ, List.foldlM_append, hq]
      simp [hq1]
    · intro i hi
      by_cases hin : i = n
      · subst hin
        rw [f7, List.getElem?_eq_getElem hn]
        rfl
      · rw [f8 i hin, e7 i (by omega)]
    · intro i hi
      rw [f8 i (by omega), e8 i (by omega)]
    · intro j hj
      rw [f9 j hj, e9 j hj]

end VTKParallel

namespace VTKParallel

open vtkPieceRequestFilter vtkInformationKey vtkInformationEntry

theorem GetDataObject_SetDataObject (info : vtkInformation) (o : vtkDataObject) :
    (info.SetDataObject o).GetDataObject = some o := by
  simp [vtkInformation.SetDataObject, vtkInformation.GetDataObject]

theorem RequestDataObject_of_input (p : Pipeline) (v : vtkInformationVector)
    (inInfo : vtkInformation) (input : vtkDataObject) (hv : p.inputVector[0]? = some v)
    (hi : v.GetInformationObject 0 = some inInfo) (hin : inInfo.GetDataObject = some input)
    (hports : PortsPresent p) :
    ∃ p1, RequestDataObject p = some (1, p1) ∧
      LoopInvariant input p p.self.NumberOfOutputPorts.toNat p1 := by
  obtain ⟨q, hq, hinv⟩ := RequestDataObject_loop input p _ hports.1 hports.2
  exact ⟨q, by simp only [RequestDataObject, hv, hi, hin, hq], hinv⟩

/-- C13 (`RequestDataObject` reports whether there was an input). Whenever the
handler returns, it returns 1 if an input data object is present on the single
input and 0 if not (the input information object absent, or present without a
data object), and when it returns 0 the whole pipeline, with every output
information object, output data object and output port information object, is
as it was. It does return when the pipeline has an output information object
and a port information object for each output port. -/
theorem C13_RequestDataObject_result (p : Pipeline) :
    (∀ r p1, RequestDataObject p = some (r, p1) →
      (r = 1 ↔ ∃ input, p.input = some input) ∧ (r = 0 ∨ r = 1) ∧ (r = 0 → p1 = p)) ∧
    (∀ v, p.inputVector[0]? = some v → PortsPresent p →
      ∃ r p1, RequestDataObject p = some (r, p1)) := by
  constructor
  · intro r p1 h
    cases hv : p.inputVector[0]? with
    | none => simp [RequestDataObject, hv] at h
    | some v =>
      cases hi : v.GetInformationObject 0 with
      | none =>
        simp only [RequestDataObject, hv, hi, Option.some.injEq, Prod.mk.injEq] at h
        obtain ⟨rfl, rfl⟩ := h
        simp [Pipeline.input, hv, vtkDataObject.GetData, hi]
      | some inInfo =>
        cases hin : inInfo.GetDataObject with
        | none =>
          simp only [RequestDataObject, hv, hi, hin, Option.some.injEq, Prod.mk.injEq] at h
          obtain ⟨rfl, rfl⟩ := h
          simp [Pipeline.input, hv, vtkDataObject.GetData, hi, hin]
        | some input =>
          simp only [RequestDataObject, hv, hi, hin] at h
          cases hl : (List.range p.self.NumberOfOutputPorts.toNat).foldlM
              (RequestDataObjectPort input) p with
          | none => simp [hl] at h
          | some q =>
            simp only [hl, Option.some.injEq, Prod.mk.injEq] at h
            obtain ⟨rfl, rfl⟩ := h
            simp [Pipeline.input, hv, vtkDataObject.GetData, hi, hin]
  · intro v hv hports
    cases hi : v.GetInformationObject 0 with
    | none => exact ⟨0, p, by simp only [RequestDataObject, hv, hi]⟩
    | some inInfo =>
      cases hin : inInfo.GetDataObject with
      | none => exact ⟨0, p, by simp only [RequestDataObject, hv, hi, hin]⟩
      | some input =>
        obtain ⟨p1, h1, _⟩ := RequestDataObject_of_input p v inInfo input hv hi hin hports
        exact ⟨1, p1, h1⟩

/-- Witness of C13: scenario 6 of the spec, an input information object
without a data object. -/
theorem C13_RequestDataObject_result_witness :
    RequestDataObject ⟨⟨8, 2, 1, [fun _ => none]⟩, [[fun _ => none]], [fun _ => none]⟩
      = some (0, ⟨⟨8, 2, 1, [fun _ => none]⟩, [[fun _ => none]], [fun _ => none]⟩) ∧
    ¬ ∃ input, Pipeline.input
      ⟨⟨8, 2, 1, [fun _ => none]⟩, [[fun _ => none]], [fun _ => none]⟩ = some input := by
  have h : RequestDataObject ⟨⟨8, 2, 1, [fun _ => none]⟩, [[fun _ => none]], [fun _ => none]⟩
      = some (0, ⟨⟨8, 2, 1, [fun _ => none]⟩, [[fun _ => none]], [fun _ => none]⟩) := rfl
  have h2 := ((C13_RequestDataObject_result
    ⟨⟨8, 2, 1, [fun _ => none]⟩, [[fun _ => none]], [fun _ => none]⟩).1 0 _ h).1
  exact ⟨h, fun hex => absurd (h2.mpr hex) (by decide)⟩

/-- C14, as amended to what `IsA` decides. When an input data object is
present and the pipeline has an output information object and a port
information object for each output port, `RequestDataObject` returns 1 and
then, for each output port: if there was no output object, or the `IsA` of the
existing output returns 0 for the class name of the input, the data object of
the port is a new empty object of the class of the input; otherwise, which
includes an existing output of a class derived from the class of the input,
the existing output is kept. So the data object of each port has the class
name of the input or answers 1 to `IsA` of it. The other entries of the output
information object are what they were. -/
theorem C14_RequestDataObject_outputs (p : Pipeline) (v : vtkInformationVector)
    (inInfo : vtkInformation) (input : vtkDataObject) (hv : p.inputVector[0]? = some v)
    (hi : v.GetInformationObject 0 = some inInfo) (hin : inInfo.GetDataObject = some input)
    (hports : PortsPresent p) :
    ∃ p1, RequestDataObject p = some (1, p1) ∧
      ∀ i, i < p.self.NumberOfOutputPorts.toNat →
        ∃ info info1 output1,
          p.outputVector[i]? = some info ∧ p1.outputVector[i]? = some info1 ∧
          info1.GetDataObject = some output1 ∧
          output1 = (match info.GetDataObject with
            | some output => if output.IsA input.GetClassName then output else input.NewInstance
            | none => input.NewInstance) ∧
          (output1.GetClassName = input.GetClassName ∨ output1.IsA input.GetClassName = true) ∧
          ∀ k, k ≠ DATA_OBJECT → info1 k = info k := by
  obtain ⟨p1, h1, hinv⟩ := RequestDataObject_of_input p v inInfo input hv hi hin hports
  refine ⟨p1, h1, fun i hi1 => ?_⟩
  have hlt : i < p.outputVector.length := lt_of_lt_of_le hi1 hports.1
  refine ⟨p.outputVector[i], outputAfter input p.outputVector[i], _,
    List.getElem?_eq_getElem hlt, ?_, ?_, rfl, ?_, ?_⟩
  · rw [hinv.2.2.2.2.2.2.1 i hi1, List.getElem?_eq_getElem hlt]
    rfl
  · cases hg : (p.outputVector[i]).GetDataObject with
    | none =>
      have hk : keepsOutput input p.outputVector[i] = false := by
        simp only [keepsOutput, hg]
      simp only [outputAfter, hk, SetPipelineInformation]
      exact GetDataObject_SetDataObject _ _
    | some o =>
      by_cases hisa : o.IsA input.GetClassName = true
      · have hk : keepsOutput input p.outputVector[i] = true := by
          simp only [keepsOutput, hg, hisa]
        simp only [outputAfter, hk, if_true, hisa]
        exact hg
      · have hk : keepsOutput input p.outputVector[i] = false := by
          simp only [keepsOutput, hg]
          simpa using hisa
        simp only [outputAfter, hk, SetPipelineInformation, hisa]
        exact GetDataObject_SetDataObject _ _
  · cases hg : (p.outputVector[i]).GetDataObject with
    | none => exact Or.inl rfl
    | some o =>
      by_cases hisa : o.IsA input.GetClassName = true
      · right
        simp only [hisa, if_true]
      · left
        simp only [hisa]
        rfl
  · intro k hk
    by_cases hkeep : keepsOutput input p.outputVector[i] = true
    · simp [outputAfter, hkeep]
    · simp [outputAfter, hkeep, SetPipelineInformation, vtkInformation.SetDataObject,
        Function.update_noteq hk]

/-- Witness of C14: the input is a `vtkImageData`; port 0 holds a
`vtkStructuredPoints`, which is kept, and port 1 holds nothing and gets a new
`vtkImageData`. -/
theorem C14_RequestDataObject_outputs_witness :
    ∃ p1, RequestDataObject
        ⟨⟨8, 2, 2, [fun _ => none, fun _ => none]⟩,
         [[vtkInformation.SetDataObject (fun _ => none)
            ⟨"vtkImageData", ["vtkImageData", "vtkDataSet", "vtkDataObject"], 1, [4, 5]⟩]],
         [vtkInformation.SetDataObject (fun _ => none)
            ⟨"vtkStructuredPoints",
             ["vtkStructuredPoints", "vtkImageData", "vtkDataSet", "vtkDataObject"], 1, [7]⟩,
          fun _ => none]⟩ = some (1, p1) ∧
      ∃ info1, p1.outputVector[1]? = some info1 ∧
        info1.GetDataObject
          = some ⟨"vtkImageData", ["vtkImageData", "vtkDataSet", "vtkDataObject"], 1, []⟩ := by
  obtain ⟨p1, h1, h2⟩ := C14_RequestDataObject_outputs
    ⟨⟨8, 2, 2, [fun _ => none, fun _ => none]⟩,
     [[vtkInformation.SetDataObject (fun _ => none)
        ⟨"vtkImageData", ["vtkImageData", "vtkDataSet", "vtkDataObject"], 1, [4, 5]⟩]],
     [vtkInformation.SetDataObject (fun _ => none)
        ⟨"vtkStructuredPoints",
         ["vtkStructuredPoints", "vtkImageData", "vtkDataSet", "vtkDataObject"], 1, [7]⟩,
      fun _ => none]⟩ _ _
    ⟨"vtkImageData", ["vtkImageData", "vtkDataSet", "vtkDataObject"], 1, [4, 5]⟩
    rfl rfl rfl (by decide)
  obtain ⟨info, info1, output1, e1, e2, e3, e4, _⟩ := h2 1 (by decide)
  refine ⟨p1, h1, info1, e2, ?_⟩
  have : info = fun _ => none := by
    have h := e1
    simp only [List.getElem?_cons_succ, List.getElem?_cons_zero, Option.some.injEq] at h
    exact h.symm
  rw [e3, e4, this]
  rfl

/-- Counterexample to C14 as stated: the input is a `vtkImageData` and output
port 0 holds a `vtkStructuredPoints`, a class derived from `vtkImageData`, so
its `IsA("vtkImageData")` returns 1. `RequestDataObject` returns 1 and the
port still holds the `vtkStructuredPoints` with its data: no object of the
concrete type of the input has been installed. -/
theorem C14_subclass_output_is_kept :
    (RequestDataObject
        ⟨⟨8, 2, 1, [fun _ => none]⟩,
         [[vtkInformation.SetDataObject (fun _ => none)
            ⟨"vtkImageData", ["vtkImageData", "vtkDataSet", "vtkDataObject"], 1, [4, 5]⟩]],
         [vtkInformation.SetDataObject (fun _ => none)
            ⟨"vtkStructuredPoints",
             ["vtkStructuredPoints", "vtkImageData", "vtkDataSet", "vtkDataObject"], 1,
             [7]⟩]⟩).map
      (fun r => (r.1, r.2.outputVector.map vtkInformation.GetDataObject))
      = some (1, [some ⟨"vtkStructuredPoints",
          ["vtkStructuredPoints", "vtkImageData", "vtkDataSet", "vtkDataObject"], 1, [7]⟩]) ∧
    "vtkStructuredPoints" ≠ "vtkImageData" := by
  decide

theorem RequestDataObject_other_ports (p : Pipeline) (v : vtkInformationVector)
    (inInfo : vtkInformation) (input : vtkDataObject) (hv : p.inputVector[0]? = some v)
    (hi : v.GetInformationObject 0 = some inInfo) (hin : inInfo.GetDataObject = some input)
    (hports : PortsPresent p) :
    ∃ p1, RequestDataObject p = some (1, p1) ∧
      ∀ j, j ≠ 0 → p1.self.OutputPortInformation[j]? = p.self.OutputPortInformation[j]? := by
  obtain ⟨p1, h1, hinv⟩ := RequestDataObject_of_input p v inInfo input hv hi hin hports
  exact ⟨p1, h1, hinv.2.2.2.2.2.2.2.2⟩

end VTKParallel
